import Mathlib

/-!
Verification of the snapshot-and-recovery subsystem of the Notion MCP server
(`src/backup-utils.ts`, `src/notion-api.ts`, `src/index.ts`).

The TypeScript source is shallowly embedded: filesystem and network effects
become explicit state passed through pure functions, JavaScript strings become
`String` (manipulated through their `List Char` data so every definition is
executable and kernel-reducible), exceptions become `Except`/result flags, and
the unanchored regex `page_(.+)_(.+)\.json` is embedded by its greedy
semantics on the filenames this system produces (prefix `page_`, suffix
`.json`, split of the middle at its last underscore, both groups nonempty).
-/

namespace NotionMCP

/-- Boolean lexicographic strict comparison of character lists. -/
def lexLt : List Char → List Char → Bool
  | [], [] => false
  | [], _ :: _ => true
  | _ :: _, [] => false
  | a :: as, b :: bs =>
    if a < b then true
    else if b < a then false
    else lexLt as bs

/-! ## Lexicographic order on character lists

JavaScript's default `Array.prototype.sort` compares strings by code units;
`lexLe`/`lexLt` embed that comparison on `List Char`. -/

/-- Boolean lexicographic (non-strict) comparison of character lists. -/
def lexLe : List Char → List Char → Bool
  | [], _ => true
  | _ :: _, [] => false
  | a :: as, b :: bs =>
    if a < b then true
    else if b < a then false
    else lexLe as bs

/-- Strips `pre` from the front of `s`, if present. -/
def stripFront : List Char → List Char → Option (List Char)
  | [], s => some s
  | _ :: _, [] => none
  | p :: ps, c :: cs => if p = c then stripFront ps cs else none

/-- Strips `suf` from the back of `s`, if present. -/
def stripBack (suf s : List Char) : Option (List Char) :=
  (stripFront suf.reverse s.reverse).map List.reverse

/-- Splits a character list at its last `'_'`. `none` when there is no
underscore. -/
def splitLastUnderscore (cs : List Char) : Option (List Char × List Char) :=
  let rev := cs.reverse
  let tsRev := rev.takeWhile fun c => c ≠ '_'
  if tsRev.length = rev.length then none
  else some ((rev.drop (tsRev.length + 1)).reverse, tsRev.reverse)

/-- The match `filename.match(/page_(.+)_(.+)\.json/)` (backup-utils.ts
line 74), by its greedy semantics on this system's filenames: prefix
`page_`, suffix `.json`, and the greedy first group makes the split fall on
the last underscore of the middle; both groups must be nonempty. -/
def matchBackupName (filename : String) : Option (String × String) :=
  match stripFront "page_".data filename.data with
  | none => none
  | some rest =>
    match stripBack ".json".data rest with
    | none => none
    | some mid =>
      match splitLastUnderscore mid with
      | none => none
      | some (pid, ts) =>
        if pid.isEmpty ∨ ts.isEmpty then none else some (⟨pid⟩, ⟨ts⟩)

/-- Concatenation of the images of `f` (explicit, to keep proofs and
evaluation elementary). -/
def concatMap (f : α → List β) : List α → List β
  | [] => []
  | a :: as => f a ++ concatMap f as

/-- A top-level block of a stored snapshot: its persisted id and its
remaining content (the `...blockContent` rest after `id` and `children`
are destructured away). -/
structure SnapBlock where
  id : String
  content : String
deriving DecidableEq, Repr

/-- The parsed artifact body: `backupContent.page.id`,
`backupContent.page.properties`, `backupContent.blocks`. -/
structure BackupContent where
  pageId : String
  properties : String
  blocks : List SnapBlock
deriving DecidableEq, Repr

/-- `file.match(/page_.+_.+\.json/)` as a plain acceptance test. -/
def isBackupName (s : String) : Bool :=
  (matchBackupName s).isSome

/-! ## Mutating tool handlers (`update-page` / `delete-page`, index.ts)

The handlers are modelled on their success path for the mutation itself;
the varying input is whether the backup step succeeds. The model returns
the response sent to the caller and whether the mutation was executed. -/

/-- Outcome of the `backupPage` call a handler makes. -/
inductive BackupResult where
  | success (path : String)
  | failure (errMsg : String)
deriving DecidableEq, Repr

/-- What a tool handler sends back to the caller. -/
structure ToolResponse where
  isError : Bool
  text : String
deriving DecidableEq, Repr

/-- The `update-page` handler (index.ts lines 546-606): a failed backup is
logged to the server console only; the handler proceeds with the update
and answers with the plain success text, merely omitting the
backup-confirmation sentence. Returns (response, mutationRan). -/
def updatePageTool (pageId : String) (skipBackup : Bool) (backup : BackupResult) :
    ToolResponse × Bool :=
  let backupInfo : Option String :=
    if skipBackup then none
    else
      match backup with
      | .success p => some p
      | .failure _ => none
  (⟨false,
    "Page " ++ pageId ++ " updated successfully." ++
      (if backupInfo.isSome then " A backup was created before the update."
       else "")⟩,
   true)

/-- The `delete-page` handler (index.ts lines 608-668): a failed backup
aborts with an error response and no deletion; otherwise the page is
deleted. Returns (response, mutationRan). -/
def deletePageTool (pageId : String) (skipBackup : Bool) (backup : BackupResult) :
    ToolResponse × Bool :=
  if skipBackup then
    (⟨false, "Page " ++ pageId ++ " has been deleted."⟩, true)
  else
    match backup with
    | .failure m =>
      (⟨true,
        "Safety procedure failed: Could not create backup before deletion. Operation aborted. Error: "
          ++ m⟩,
       false)
    | .success _ =>
      (⟨false, "Page " ++ pageId ++ " has been deleted. A backup was created before deletion."⟩,
       true)

/-- String comparison for the JS `Array.prototype.sort` call on
filenames. -/
def strLe (a b : String) : Prop := lexLe a.data b.data = true

instance : DecidableRel strLe := fun a b =>
  inferInstanceAs (Decidable (_ = true))

def lexLe_total : ∀ a b : List Char, lexLe a b = true ∨ lexLe b a = true := by
  intro a
  induction a with
  | nil => intro b; left; rfl
  | cons x xs ih =>
    intro b
    cases b with
    | nil => right; rfl
    | cons y ys =>
      by_cases hxy : x < y
      · left; simp [lexLe, hxy]
      · by_cases hyx : y < x
        · right; simp [lexLe, hyx]
        · have := ih ys
          rcases this with h | h
          · left; simp [lexLe, hxy, hyx, h]
          · right; simp [lexLe, hxy, hyx, h]

instance : IsTotal String strLe := ⟨fun a b => lexLe_total a.data b.data⟩

def lexLe_trans : ∀ a b c : List Char,
    lexLe a b = true → lexLe b c = true → lexLe a c = true := by
  intro a
  induction a with
  | nil => intro b c _ _; rfl
  | cons x xs ih =>
    intro b c hab hbc
    cases b with
    | nil => simp [lexLe] at hab
    | cons y ys =>
      cases c with
      | nil => simp [lexLe] at hbc
      | cons z zs =>
        simp only [lexLe] at hab hbc ⊢
        by_cases hxy : x < y
        · by_cases hyz : y < z
          · have hxz : x < z := lt_trans hxy hyz
            simp [hxz]
          · by_cases hzy : z < y
            · simp [hyz, hzy] at hbc
            · have hyez : y = z := le_antisymm (not_lt.mp hzy) (not_lt.mp hyz)
              subst hyez
              simp [hxy]
        · by_cases hyx : y < x
          · simp [hxy, hyx] at hab
          · have hxey : x = y := le_antisymm (not_lt.mp hyx) (not_lt.mp hxy)
            subst hxey
            simp only [lt_irrefl, if_false] at hab
            by_cases hyz : x < z
            · simp [hyz]
            · by_cases hzy : z < x
              · simp [hyz, hzy] at hbc
              · have hxez : x = z := le_antisymm (not_lt.mp hzy) (not_lt.mp hyz)
                subst hxez
                simp only [lt_irrefl, if_false] at hab hbc ⊢
                exact ih _ _ hab hbc

instance : IsTrans String strLe := ⟨fun a b c => lexLe_trans a.data b.data c.data⟩

/-! ## Artifact naming (`backupPage` / `listPageBackups`, backup-utils.ts)

`backupPage` builds `page_<pageId>_<ISO timestamp with ':' -> '-'>.json`;
`listPageBackups` parses a filename with `page_(.+)_(.+)\.json` and decodes
the second group with the global hyphen-to-colon replace. -/

/-- `new Date().toISOString().replace(/:/g, "-")` applied to a given ISO
timestamp string (backup-utils.ts line 27). -/
def encodeTimestamp (ts : String) : String :=
  ⟨ts.data.map fun c => if c = ':' then '-' else c⟩

/-- The global hyphen-to-colon replace on the timestamp group (backup-utils.ts line 83): the decoding
applied by `listPageBackups` when it builds a descriptor. -/
def decodeTimestamp (s : String) : String :=
  ⟨s.data.map fun c => if c = '-' then ':' else c⟩

/-- `` `page_${pageId}_${timestamp}.json` `` (backup-utils.ts line 28) for a
page id and an (already ISO-rendered) capture timestamp. -/
def backupFilename (pageId : String) (capturedAt : String) : String :=
  "page_" ++ pageId ++ "_" ++ encodeTimestamp capturedAt ++ ".json"

/-- The `(pageId, timestamp)` pair a descriptor built by `listPageBackups`
carries for a given filename: the raw match groups with the second group
decoded by the global hyphen-to-colon replace. -/
def parsedDescriptorFields (filename : String) : Option (String × String) :=
  (matchBackupName filename).map fun p => (p.1, decodeTimestamp p.2)

/-! ## Tree Materializer (`fetchAllBlocks`, notion-api.ts lines 147-195)

The Remote Content Gateway is modelled by the full ordered child list of
every block id; `notion.blocks.children.list` returns one page of at most
`DEFAULT_PAGE_SIZE` children plus a continuation, and `fetchAllBlocks`
drains the continuation chain before processing each child. -/

/-- `DEFAULT_PAGE_SIZE` (notion-api.ts line 5). -/
def DEFAULT_PAGE_SIZE : Nat := 100

/-- A block as returned by the Gateway: id, `type`, `has_children`, and the
type-keyed payload (opaque here, merged into the processed record). -/
structure RBlock where
  id : String
  btype : String
  hasChildren : Bool
  payload : String
deriving DecidableEq, Repr

/-- The Remote Content Gateway for reads: the full ordered children of each
block id. -/
structure Gateway where
  children : String → List RBlock

/-- One `notion.blocks.children.list` call: the page of children starting at
`cursor`, whether more remain, and the next cursor. -/
def listChildrenPage (g : Gateway) (blockId : String) (cursor : Nat) :
    List RBlock × Bool × Nat :=
  let all := g.children blockId
  ((all.drop cursor).take DEFAULT_PAGE_SIZE,
   decide (cursor + DEFAULT_PAGE_SIZE < all.length),
   cursor + DEFAULT_PAGE_SIZE)

/-- The `while (hasMore)` pagination loop of `fetchAllBlocks`: drains the
continuation chain starting from `cursor`, concatenating the pages. The
loop is structured on an explicit iteration bound so it stays
kernel-reducible; `drainChildren` seeds a bound that can never be hit
(each iteration advances the cursor by a full page, see
`drainLoop_eq_drop`). -/
def drainLoop (g : Gateway) (blockId : String) : Nat → Nat → List RBlock
  | 0, _ => []
  | fuel + 1, cursor =>
    if (listChildrenPage g blockId cursor).2.1 then
      (listChildrenPage g blockId cursor).1 ++
        drainLoop g blockId fuel (listChildrenPage g blockId cursor).2.2
    else
      (listChildrenPage g blockId cursor).1

/-- The pagination drain of `fetchAllBlocks` for one block id. -/
def drainChildren (g : Gateway) (blockId : String) (cursor : Nat) : List RBlock :=
  drainLoop g blockId ((g.children blockId).length + 1) cursor

/-- A processed block as built by `fetchAllBlocks`: `id`, `type`,
`has_children`, the merged payload, and — only when assigned — the `children`
field (`none` models an absent field, `some []` an empty array). -/
inductive PBlock where
  | mk (id : String) (btype : String) (has_children : Bool) (payload : String)
      (children : Option (List PBlock))

/-- The `id` field of a processed block. -/
def PBlock.id : PBlock → String
  | .mk i _ _ _ _ => i

/-- The `has_children` field of a processed block. -/
def PBlock.has_children : PBlock → Bool
  | .mk _ _ hc _ _ => hc

/-- The `children` field of a processed block (`none` = field absent). -/
def PBlock.children : PBlock → Option (List PBlock)
  | .mk _ _ _ _ c => c

/-- The recursion of `fetchAllBlocks`, structured on the remaining depth
budget `maxDepth - currentDepth`: budget `0` is the
`currentDepth >= maxDepth` guard returning `[]`; otherwise every drained
child is processed, and whenever `has_children` is true the `children`
field is assigned the recursive result (which at an exhausted budget is the
empty array — the field is never omitted for such a block). -/
def fetchAux (g : Gateway) (blockId : String) : Nat → List PBlock
  | 0 => []
  | budget + 1 =>
    (drainChildren g blockId 0).map fun b =>
      PBlock.mk b.id b.btype b.hasChildren b.payload
        (if b.hasChildren then some (fetchAux g b.id budget) else none)

/-- `fetchAllBlocks(notion, blockId, maxDepth, currentDepth)`
(notion-api.ts line 147); the default arguments at the call site in
`fetchPageContent` are `maxDepth = 3`, `currentDepth = 0`. -/
def fetchAllBlocks (g : Gateway) (blockId : String) (maxDepth currentDepth : Nat) :
    List PBlock :=
  fetchAux g blockId (maxDepth - currentDepth)

/-- The children list of a processed block, reading an absent field as no
children. -/
def childrenOrNil (b : PBlock) : List PBlock :=
  b.children.getD []

/-- All blocks sitting `n` levels below the given forest's roots. -/
def blocksAt : Nat → List PBlock → List PBlock
  | 0, l => l
  | n + 1, l => blocksAt n (concatMap childrenOrNil l)

/-- A concrete remote tree of true depth 4: `r -> a -> b -> c -> d`, every
non-leaf block flagged `has_children`. -/
def gDeep : Gateway where
  children id :=
    if id = "r" then [⟨"a", "paragraph", true, "pa"⟩]
    else if id = "a" then [⟨"b", "paragraph", true, "pb"⟩]
    else if id = "b" then [⟨"c", "paragraph", true, "pc"⟩]
    else if id = "c" then [⟨"d", "paragraph", false, "pd"⟩]
    else []

/-! ## Restorer (`restoreFromBackup`, backup-utils.ts lines 103-167)

The live page is the Gateway-side state the Restorer mutates: its
properties and its ordered top-level children. `restoreFromBackup` updates
the properties from the snapshot, lists the page's current children with a
SINGLE `notion.blocks.children.list` call (server default page size 100,
no continuation), deletes each listed block, strips `id` and `children`
from every snapshot top-level block and appends the result (the server
assigns the ids, supplied here as `freshIds`). -/

/-- A block as stored on the live page: server-assigned id plus content. -/
structure RemoteBlock where
  id : String
  content : String
deriving DecidableEq, Repr

/-- The live page state touched by the Restorer. -/
structure RemotePage where
  properties : String
  children : List RemoteBlock
deriving DecidableEq, Repr

/-- `notion.blocks.delete` on the live page: removes the block with the
given id. -/
def deleteBlock (page : RemotePage) (bid : String) : RemotePage :=
  { page with children := page.children.filter fun b => b.id ≠ bid }

/-- `restoreFromBackup` (backup-utils.ts line 103) acting on the live page
state. `freshIds` are the identifiers the server assigns to the appended
blocks. -/
def restoreFromBackup (page : RemotePage) (backup : BackupContent)
    (freshIds : List String) : RemotePage :=
  let page := { page with properties := backup.properties }
  let existingBlocks := page.children.take DEFAULT_PAGE_SIZE
  let page := existingBlocks.foldl (fun p b => deleteBlock p b.id) page
  let topLevelBlocks := backup.blocks.map fun b => b.content
  { page with
    children := page.children ++ List.zipWith RemoteBlock.mk freshIds topLevelBlocks }

/-- A page with 101 top-level children, ids `old0` … `old100`. -/
def page101 : RemotePage :=
  ⟨"P", (List.range 101).map fun i => ⟨"old" ++ toString i, "oldContent"⟩⟩

/-! ## Retention Manager (`cleanupOldBackups`, backup-utils.ts lines 299-366)

The backup directory is modelled as a list of entries (name, mtime,
whether `unlinkSync` on the entry throws). `cleanupOldBackups` filters the
names matching the backup pattern, groups them by the parsed page id (a JS
object preserves string-key insertion order), sorts each group by
filename, deletes the oldest excess per page, then — over the SAME
pre-computed `backupFiles` list — stats every file and deletes those whose
mtime-age exceeds the limit. Any thrown error (a failing unlink, or
`statSync` on a file the count pass already deleted) propagates to the
outer catch, which logs and returns `false`; deletions already performed
stay. The function returns `true`/`false`/nothing — never a count. -/

/-- One directory entry: filename, modification time (ms epoch), and
whether deleting it fails. -/
structure FileEntry where
  name : String
  mtime : Int
  unlinkFails : Bool
deriving DecidableEq, Repr

/-- The storage-side state `cleanupOldBackups` runs against. -/
structure CleanupFS where
  dirExists : Bool
  files : List FileEntry
deriving DecidableEq, Repr

/-- The value `cleanupOldBackups` returns: nothing (directory missing),
`true` (completed), `false` (caught an error). -/
inductive CleanupResult where
  | noDir
  | ok
  | failed
deriving DecidableEq, Repr

/-- The page-id group key the cleanup's second regex match extracts for a
file, when it matches. -/
def pageOf (f : FileEntry) : Option String :=
  (matchBackupName f.name).map Prod.fst

/-- The capture timestamp a descriptor for this file would carry
(the parsed second group, hyphens decoded back to colons). -/
def capturedAtD (f : FileEntry) : String :=
  decodeTimestamp ⟨(((matchBackupName f.name).map Prod.snd).getD "").data⟩

/-- Appends `f` to the group keyed `pid`, creating the group at the end on
first sight — JS object insertion-order semantics of
`backupsByPage[pageId].push(file)`. -/
def addToGroups : List (String × List FileEntry) → String → FileEntry →
    List (String × List FileEntry)
  | [], pid, f => [(pid, [f])]
  | (k, g) :: rest, pid, f =>
    if k = pid then (k, g ++ [f]) :: rest
    else (k, g) :: addToGroups rest pid f

/-- One step of the grouping loop (skipping, like the source, any file
whose name fails to re-match). -/
def groupStep (gs : List (String × List FileEntry)) (f : FileEntry) :
    List (String × List FileEntry) :=
  match matchBackupName f.name with
  | none => gs
  | some (pid, _) => addToGroups gs pid f

/-- The grouping loop over `backupFiles`. -/
def groupByPage (files : List FileEntry) : List (String × List FileEntry) :=
  files.foldl groupStep []

/-- Association lookup on the group list. -/
def groupLookup : List (String × List FileEntry) → String → List FileEntry
  | [], _ => []
  | (k, g) :: rest, p => if k = p then g else groupLookup rest p

/-- `pageBackups.sort()` compares filenames as JS strings. -/
def entryLe (a b : FileEntry) : Prop :=
  lexLe a.name.data b.name.data = true

instance : DecidableRel entryLe := fun a b =>
  inferInstanceAs (Decidable (_ = true))

instance : IsTotal FileEntry entryLe :=
  ⟨fun a b => lexLe_total a.name.data b.name.data⟩

instance : IsTrans FileEntry entryLe :=
  ⟨fun a b c => lexLe_trans a.name.data b.name.data c.name.data⟩

/-- The per-page count pass of `cleanupOldBackups`: for each group in
order, sort ascending by filename and mark the oldest
`length - maxBackupsPerPage` files when the group exceeds the limit. The
result is the flattened deletion list in execution order. -/
def countMarked (groups : List (String × List FileEntry))
    (maxBackupsPerPage : Nat) : List FileEntry :=
  concatMap
    (fun pg =>
      if pg.2.length > maxBackupsPerPage then
        (List.insertionSort entryLe pg.2).take (pg.2.length - maxBackupsPerPage)
      else [])
    groups

/-- Sequential `fs.unlinkSync` over a deletion list: a missing path or a
failing unlink throws, which aborts the whole batch (outer catch); the
deletions already performed persist. Returns the success flag and the
directory contents afterwards. -/
def runDeletes : List FileEntry → List FileEntry → Bool × List FileEntry
  | current, [] => (true, current)
  | current, f :: rest =>
    if current.any fun c => c.name = f.name then
      if f.unlinkFails then (false, current)
      else runDeletes (current.filter fun c => c.name ≠ f.name) rest
    else (false, current)

/-- The age pass: iterates the pre-computed `backupFiles` list, stats each
file (throwing — aborting the pass — when the count pass already deleted
it), and unlinks those whose mtime-age exceeds `maxAgeMs`. -/
def agePass (nowMs maxAgeMs : Int) :
    List FileEntry → List FileEntry → Bool × List FileEntry
  | current, [] => (true, current)
  | current, f :: rest =>
    if current.any fun c => c.name = f.name then
      if nowMs - f.mtime > maxAgeMs then
        if f.unlinkFails then (false, current)
        else agePass nowMs maxAgeMs (current.filter fun c => c.name ≠ f.name) rest
      else agePass nowMs maxAgeMs current rest
    else (false, current)

/-- `cleanupOldBackups(maxBackupsPerPage, maxBackupAge)` (backup-utils.ts
line 299; the source defaults are 5 and 30): returns the result value and
the directory contents afterwards. -/
def cleanupOldBackups (fs : CleanupFS) (nowMs : Int) (maxBackupsPerPage : Nat)
    (maxBackupAge : Int) : CleanupResult × List FileEntry :=
  if !fs.dirExists then (.noDir, fs.files)
  else
    let backupFiles := fs.files.filter fun f => isBackupName f.name
    let groups := groupByPage backupFiles
    let marked := countMarked groups maxBackupsPerPage
    match runDeletes fs.files marked with
    | (false, cur) => (.failed, cur)
    | (true, cur) =>
      match agePass nowMs (maxBackupAge * 24 * 60 * 60 * 1000) cur backupFiles with
      | (false, cur2) => (.failed, cur2)
      | (true, cur2) => (.ok, cur2)

/-- First file of the C6 scenario: the oldest backup of page `p1`, whose
deletion fails. -/
def fileA : FileEntry :=
  ⟨backupFilename "p1" "2025-01-01T00:00:00.000Z", 0, true⟩

/-- Second file of the C6 scenario: also marked for deletion. -/
def fileB : FileEntry :=
  ⟨backupFilename "p1" "2025-01-02T00:00:00.000Z", 0, false⟩

/-- Third file of the C6 scenario: the newest backup, to be kept. -/
def fileC : FileEntry :=
  ⟨backupFilename "p1" "2025-01-03T00:00:00.000Z", 0, false⟩

/-- A lone expired backup of page `p1` (mtime 0, i.e. past the age
limit at the evaluation times used below). -/
def oldOne : FileEntry :=
  ⟨backupFilename "p1" "2025-01-01T00:00:00.000Z", 0, false⟩

/-- A lone expired backup of page `p2`. -/
def oldTwo : FileEntry :=
  ⟨backupFilename "p2" "2025-01-01T00:00:00.000Z", 0, false⟩

/-- The group keys, in insertion order. -/
def groupKeys (gs : List (String × List FileEntry)) : List String :=
  gs.map Prod.fst

/-- The slice of the count-pass deletion list that belongs to page `p`. -/
def pageMarked (l : List FileEntry) (p : String) (maxN : Nat) : List FileEntry :=
  if (l.filter fun f => decide (pageOf f = some p)).length > maxN then
    (List.insertionSort entryLe (l.filter fun f => decide (pageOf f = some p))).take
      ((l.filter fun f => decide (pageOf f = some p)).length - maxN)
  else []

/-- Older of two page-`p1` backups for the C4 witness. -/
def keepOld : FileEntry :=
  ⟨backupFilename "p1" "2025-01-01T00:00:00.000Z", 0, false⟩

/-- Newer of two page-`p1` backups for the C4 witness. -/
def keepNew : FileEntry :=
  ⟨backupFilename "p1" "2025-01-02T00:00:00.000Z", 0, false⟩

/-- An artifact whose encoded capture time equals `agedTwin`'s but whose
file mtime is ancient. -/
def agedTwinOld : FileEntry :=
  ⟨backupFilename "pa" "2025-06-01T12:00:00.000Z", 0, false⟩

/-- An artifact of another page with the SAME capture timestamp but a
fresh mtime. -/
def agedTwinNew : FileEntry :=
  ⟨backupFilename "pb" "2025-06-01T12:00:00.000Z", 2592000001, false⟩

/-! ## Backup listing (`listPageBackups`, backup-utils.ts lines 55-95)

The filesystem is modelled with explicit failure points: the directory
existence check, `readdirSync` (which may throw), and `statSync` per file
(which may throw). The try body is `listPageBackupsE`; the surrounding
catch maps every error to the empty list. -/

/-- What `statSync` reports for a file. -/
structure StatInfo where
  size : Nat
  mtimeMs : Int
deriving DecidableEq, Repr

/-- The filesystem as seen by `listPageBackups`. `none` models a thrown
filesystem error. -/
structure ListFS where
  dirExists : Bool
  readdirResult : Option (List String)
  statResult : String → Option StatInfo

/-- The descriptor `listPageBackups` builds per artifact. -/
structure BackupDescriptor where
  pageId : String
  timestamp : String
  filename : String
  sizeBytes : Nat
  createdMs : Int
deriving DecidableEq, Repr

/-- The try body of `listPageBackups`: returns `[]` when the directory is
missing, reads the directory, filters on the page's filename prefix and
the `.json` suffix, sorts descending, parses each name (skipping
non-matching ones) and stats each matching file. Any filesystem error
escapes as `Except.error`. -/
def listPageBackupsE (fs : ListFS) (pageId : String) :
    Except Unit (List BackupDescriptor) := do
  if !fs.dirExists then
    return []
  let files ← match fs.readdirResult with
    | none => Except.error ()
    | some fl => pure fl
  let pageBackups := files.filter fun file =>
    (("page_" ++ pageId ++ "_").data.isPrefixOf file.data) &&
      (".json".data.isSuffixOf file.data)
  let sorted := (List.insertionSort strLe pageBackups).reverse
  let parsed ← sorted.mapM fun filename =>
    match matchBackupName filename with
    | none => pure none
    | some (pid, ts) =>
      match fs.statResult filename with
      | none => Except.error ()
      | some st =>
        pure (some
          ⟨pid, decodeTimestamp ts, filename, st.size, st.mtimeMs⟩)
  return parsed.filterMap id

/-- `listPageBackups` with its outer catch: every error becomes `[]`. -/
def listPageBackups (fs : ListFS) (pageId : String) : List BackupDescriptor :=
  match listPageBackupsE fs pageId with
  | .ok l => l
  | .error _ => []

/-! ## Block validation (`validateBlocks`, notion-api.ts lines 11-43)

Content blocks arrive as JSON values. `!block.type` is JavaScript
falsiness of the `type` field (absent, null, `false`, `0`, or the empty
string); `typeof block[block.type] === "undefined"` is absence of the
property named by the (stringified) `type` value. Both `createPage` and
`updatePage` validate the content before handing it to
`addBlocksToPage`, which validates again; the doubly validated list is
what reaches the Gateway's append call. -/

/-- A JSON value. -/
inductive JsVal where
  | vnull
  | vbool (b : Bool)
  | vnum (n : Int)
  | vstr (s : String)
  | varr (xs : List JsVal)
  | vobj (fields : List (String × JsVal))

mutual

/-- JavaScript `String(v)` for a property key. -/
def jsPropKey : JsVal → String
  | .vnull => "null"
  | .vbool b => cond b "true" "false"
  | .vnum n => toString n
  | .vstr s => s
  | .varr xs => String.intercalate "," (jsArrElemKeys xs)
  | .vobj _ => "[object Object]"

/-- JavaScript array stringification: elements joined by `","`, null
elements rendered empty. -/
def jsArrElemKeys : List JsVal → List String
  | [] => []
  | .vnull :: rest => "" :: jsArrElemKeys rest
  | v :: rest => jsPropKey v :: jsArrElemKeys rest

end

/-- JavaScript property read: `none` models `undefined`. -/
def getField (v : JsVal) (k : String) : Option JsVal :=
  match v with
  | .vobj fields => (fields.find? fun p => p.1 == k).map Prod.snd
  | _ => none

/-- JavaScript truthiness of a JSON value. -/
def jsTruthy : JsVal → Bool
  | .vnull => false
  | .vbool b => b
  | .vnum n => decide (n ≠ 0)
  | .vstr s => decide (s ≠ "")
  | .varr _ => true
  | .vobj _ => true

/-- The replacement block `validateBlocks` substitutes: a paragraph whose
rich text reads "Invalid block removed.". -/
def defaultParagraphBlock : JsVal :=
  .vobj
    [("type", .vstr "paragraph"),
     ("object", .vstr "block"),
     ("paragraph",
      .vobj
        [("rich_text",
          .varr
            [.vobj
              [("text", .vobj [("content", .vstr "Invalid block removed.")]),
               ("type", .vstr "text")]])])]

/-- Validation of one block (the body of the `map` in `validateBlocks`). -/
def validateBlock (block : JsVal) : JsVal :=
  match getField block "type" with
  | none => defaultParagraphBlock
  | some tv =>
    if !jsTruthy tv then defaultParagraphBlock
    else if (getField block (jsPropKey tv)).isNone then defaultParagraphBlock
    else block

/-- `validateBlocks` (notion-api.ts line 11). -/
def validateBlocks (blocks : List JsVal) : List JsVal :=
  blocks.map validateBlock

/-- A block the validator passes through: a truthy `type` field and the
payload property named by it. -/
def wellFormedBlock (b : JsVal) : Bool :=
  match getField b "type" with
  | none => false
  | some tv => jsTruthy tv && (getField b (jsPropKey tv)).isSome

/-- The block list `createPage` sends to the Gateway's append for a given
`content` argument: nothing when `content` is empty, otherwise the content
validated by `createPage` and then again by `addBlocksToPage`. -/
def createPageSentBlocks (content : List JsVal) : List JsVal :=
  if content.length > 0 then validateBlocks (validateBlocks content) else []

/-- The block list `updatePage` sends to the Gateway's append for a given
`content` argument (same double validation path). -/
def updatePageSentBlocks (content : List JsVal) : List JsVal :=
  if content.length > 0 then validateBlocks (validateBlocks content) else []

/-- C1: artifact naming does NOT round-trip. Building the artifact name for
page `abc123` captured at `2025-01-02T03:04:05.000Z` and listing it back
through `listPageBackups` returns the original page id but the timestamp
`2025:01:02T03:04:05.000Z`: the decoder (a global hyphen-to-colon replace)
also rewrites the hyphens that belong to the ISO date, so the recovered
`capturedAt` differs from the original. -/
theorem naming_roundtrip_fails_on_iso_timestamp :
    listPageBackups
        ⟨true, some [backupFilename "abc123" "2025-01-02T03:04:05.000Z"],
         fun _ => some ⟨2048, 77⟩⟩ "abc123" =
      [⟨"abc123", "2025:01:02T03:04:05.000Z",
        backupFilename "abc123" "2025-01-02T03:04:05.000Z", 2048, 77⟩] ∧
    parsedDescriptorFields
        (backupFilename "abc123" "2025-01-02T03:04:05.000Z") =
      some ("abc123", "2025:01:02T03:04:05.000Z") ∧
    ("2025:01:02T03:04:05.000Z" : String) ≠ "2025-01-02T03:04:05.000Z" := by
  refine ⟨?_, rfl, by decide⟩
  rfl

/-- One level below a `fetchAux` forest with budget `m + 1` is the
concatenation of the `fetchAux` forests with budget `m` over the children
of the blocks that have children. -/
theorem concatMap_children_fetchAux (g : Gateway) (blockId : String) (m : Nat) :
    concatMap childrenOrNil (fetchAux g blockId (m + 1)) =
      concatMap (fun b => if b.hasChildren then fetchAux g b.id m else [])
        (drainChildren g blockId 0) := by
  rw [fetchAux]
  generalize drainChildren g blockId 0 = l
  induction l with
  | nil => rfl
  | cons b bs ih =>
    simp only [List.map_cons, concatMap, ih]
    by_cases hb : b.hasChildren
    · simp [childrenOrNil, PBlock.children, hb]
    · simp [childrenOrNil, PBlock.children, hb]

/-- C2, counterexample: materializing `gDeep` (true depth 4) with the default
`maxDepth = 3` puts block `c` at the deepest returned level with
`children = some []` — the `children` field is PRESENT and EMPTY, not
absent, because the recursion at exhausted budget returns `[]` and
`fetchAllBlocks` assigns it unconditionally whenever `has_children` is
true. -/
theorem depth_limit_children_present_empty :
    blocksAt 2 (fetchAllBlocks gDeep "r" 3 0) =
      [PBlock.mk "c" "paragraph" true "pc" (some [])] ∧
    (some ([] : List PBlock)) ≠ none := by
  constructor
  · rfl
  · intro h
    cases h

/-- C3, counterexample: with 101 current top-level children, restore's
single list call sees only the first 100, so one previous child
(`old100`) survives the restore, in front of the recreated snapshot
blocks — the claim's "none of the previous top-level children remain"
fails. -/
theorem restore_leaves_residue_beyond_page_size :
    (restoreFromBackup page101 ⟨"pg", "Q", [⟨"s1", "snap"⟩]⟩ ["new0"]).children =
      [⟨"old100", "oldContent"⟩, ⟨"new0", "snap"⟩] := by
  rfl

/-- Evaluation of `cleanupOldBackups` once the directory-exists guard has
passed. -/
theorem cleanup_eq_of_dirExists (fs : CleanupFS) (nowMs : Int) (maxN : Nat)
    (maxAge : Int) (h : fs.dirExists = true) :
    cleanupOldBackups fs nowMs maxN maxAge =
      (match runDeletes fs.files
          (countMarked
            (groupByPage (fs.files.filter fun f => isBackupName f.name)) maxN) with
       | (false, cur) => (.failed, cur)
       | (true, cur) =>
         match agePass nowMs (maxAge * 24 * 60 * 60 * 1000) cur
             (fs.files.filter fun f => isBackupName f.name) with
         | (false, cur2) => (.failed, cur2)
         | (true, cur2) => (.ok, cur2)) := by
  unfold cleanupOldBackups
  rw [if_neg (by simp [h])]

/-- C6, counterexample: with `maxBackupsPerPage = 1`, both `fileA` and
`fileB` are marked for deletion, but the failing unlink of `fileA` aborts
the whole batch: `fileB` is NOT deleted (all three files survive) and the
outcome is the bare flag `false` — no aggregate of individual failures is
produced, and the remaining evictions are abandoned. -/
theorem eviction_aborts_on_first_failure :
    countMarked
        (groupByPage ([fileA, fileB, fileC].filter fun f => isBackupName f.name))
        1 =
      [fileA, fileB] ∧
    cleanupOldBackups ⟨true, [fileA, fileB, fileC]⟩ 0 1 30 =
      (.failed, [fileA, fileB, fileC]) := by
  constructor
  · decide
  · decide

/-- C7, counterexample: two runs of the retention operation that evict
different numbers of artifacts (one and two) return the identical value
`true` — the operation's result is a success flag, not the count of
evicted artifacts. -/
theorem retention_result_not_a_count :
    cleanupOldBackups ⟨true, [oldOne]⟩ 2592000001 5 30 = (.ok, []) ∧
    cleanupOldBackups ⟨true, [oldOne, oldTwo]⟩ 2592000001 5 30 = (.ok, []) ∧
    (cleanupOldBackups ⟨true, [oldOne]⟩ 2592000001 5 30).1 =
      (cleanupOldBackups ⟨true, [oldOne, oldTwo]⟩ 2592000001 5 30).1 := by
  refine ⟨by decide, by decide, by decide⟩

/-- C7, amended: the retention operation returns a three-valued status —
nothing when the backup directory is missing, otherwise `true` on a clean
run and `false` on a caught error — never the number of evicted
artifacts. The missing-directory status occurs exactly when the directory
does not exist. -/
theorem retention_returns_success_flag (fs : CleanupFS) (nowMs : Int)
    (maxN : Nat) (maxAge : Int) :
    ((cleanupOldBackups fs nowMs maxN maxAge).1 = .noDir ↔ fs.dirExists = false) := by
  by_cases h : fs.dirExists
  · rw [cleanup_eq_of_dirExists fs nowMs maxN maxAge h]
    rcases hrd : runDeletes fs.files
        (countMarked
          (groupByPage (fs.files.filter fun f => isBackupName f.name)) maxN) with
      ⟨b, cur⟩
    cases b
    · simp [hrd, h]
    · rcases hap : agePass nowMs (maxAge * 24 * 60 * 60 * 1000) cur
          (fs.files.filter fun f => isBackupName f.name) with ⟨b2, cur2⟩
      cases b2 <;> simp [hrd, hap, h]
  · unfold cleanupOldBackups
    rw [if_pos (by simp [Bool.not_eq_true] at h ⊢; exact h)]
    simp [Bool.not_eq_true] at h
    simp [h]

/-- Deletion batches compose: a successful prefix run continues with the
rest from the state it produced. -/
theorem runDeletes_append : ∀ (l₁ l₂ current cur' : List FileEntry),
    runDeletes current l₁ = (true, cur') →
    runDeletes current (l₁ ++ l₂) = runDeletes cur' l₂ := by
  intro l₁
  induction l₁ with
  | nil =>
    intro l₂ current cur' h
    simp only [runDeletes, Prod.mk.injEq, true_and] at h
    subst h
    rfl
  | cons f rest ih =>
    intro l₂ current cur' h
    rw [List.cons_append]
    simp only [runDeletes] at h ⊢
    by_cases hany : (current.any fun c => c.name = f.name) = true
    · rw [if_pos hany] at h ⊢
      cases hfl : f.unlinkFails
      · rw [hfl] at h
        simp only [Bool.false_eq_true, if_false] at h ⊢
        exact ih l₂ _ cur' h
      · rw [hfl] at h
        simp at h
    · rw [if_neg hany] at h
      simp at h

/-- The age pass deletes nothing when every listed file is within the age
limit: whatever its success flag (it may still abort on a stat of an
already-deleted file), the directory contents are unchanged. -/
theorem agePass_stays_when_young (nowMs maxAgeMs : Int) :
    ∀ (l current : List FileEntry),
      (∀ f ∈ l, nowMs - f.mtime ≤ maxAgeMs) →
      (agePass nowMs maxAgeMs current l).2 = current := by
  intro l
  induction l with
  | nil => intro current _; rfl
  | cons f rest ih =>
    intro current hy
    simp only [agePass]
    by_cases hany : (current.any fun c => c.name = f.name) = true
    · rw [if_pos hany,
        if_neg (not_lt.mpr (hy f (List.mem_cons_self f rest)))]
      exact ih current fun g hg => hy g (List.mem_cons_of_mem f hg)
    · rw [if_neg hany]

/-- What the count pass keeps on one page: exactly `min` of the group size
and the limit survive, every evicted file sorts strictly before (has a
smaller filename than) every kept file, and everything not kept was
marked. -/
theorem pageMarked_analysis (l : List FileEntry) (p : String) (maxN : Nat)
    (hln : (l.map FileEntry.name).Nodup) :
    ((l.filter fun f => decide (pageOf f = some p)).filter fun c =>
        !(decide (c ∈ pageMarked l p maxN))).length =
      min (l.filter fun f => decide (pageOf f = some p)).length maxN ∧
    (∀ f ∈ l.filter fun f => decide (pageOf f = some p),
      f ∉ ((l.filter fun f => decide (pageOf f = some p)).filter fun c =>
        !(decide (c ∈ pageMarked l p maxN))) → f ∈ pageMarked l p maxN) ∧
    ∀ f ∈ pageMarked l p maxN,
      ∀ g ∈ ((l.filter fun f => decide (pageOf f = some p)).filter fun c =>
        !(decide (c ∈ pageMarked l p maxN))),
        entryLe f g ∧ f ≠ g := by
  set gp := l.filter fun f => decide (pageOf f = some p) with hgp
  have hgpnames : (gp.map FileEntry.name).Nodup :=
    ((List.filter_sublist l).map FileEntry.name).nodup hln
  have hgpnodup : gp.Nodup := hgpnames.of_map
  by_cases hlen : gp.length > maxN
  · have hmk : pageMarked l p maxN =
        (List.insertionSort entryLe gp).take (gp.length - maxN) := by
      unfold pageMarked
      rw [← hgp, if_pos hlen]
    set srt := List.insertionSort entryLe gp with hsrt
    set k := gp.length - maxN with hk
    have hperm : List.Perm srt gp := List.perm_insertionSort entryLe gp
    have hsrtnodup : srt.Nodup := (hperm.nodup_iff).mpr hgpnodup
    have hsplit : srt.take k ++ srt.drop k = srt := List.take_append_drop k srt
    have hdisj : ∀ a ∈ srt.take k, a ∉ srt.drop k := by
      have : (srt.take k ++ srt.drop k).Nodup := by rw [hsplit]; exact hsrtnodup
      exact fun a ha hd => (List.nodup_append.mp this).2.2 ha hd
    have hkept_perm :
        List.Perm (gp.filter fun c => !(decide (c ∈ pageMarked l p maxN)))
          (srt.drop k) := by
      have h1 : List.Perm (gp.filter fun c => !(decide (c ∈ pageMarked l p maxN)))
          (srt.filter fun c => !(decide (c ∈ pageMarked l p maxN))) :=
        (hperm.symm).filter _
      refine h1.trans ?_
      have h2 : srt.filter (fun c => !(decide (c ∈ pageMarked l p maxN))) =
          (srt.take k).filter (fun c => !(decide (c ∈ pageMarked l p maxN))) ++
            (srt.drop k).filter (fun c => !(decide (c ∈ pageMarked l p maxN))) := by
        rw [← List.filter_append, hsplit]
      rw [h2, hmk]
      have h3 : (srt.take k).filter (fun c => !(decide (c ∈ srt.take k))) = [] := by
        apply List.filter_eq_nil_iff.mpr
        intro a ha
        simp [ha]
      have h4 : (srt.drop k).filter (fun c => !(decide (c ∈ srt.take k))) =
          srt.drop k := by
        apply List.filter_eq_self.mpr
        intro a ha
        have : a ∉ srt.take k := fun hmem => hdisj a hmem ha
        simp [this]
      rw [h3, h4, List.nil_append]
    refine ⟨?_, ?_, ?_⟩
    · rw [hkept_perm.length_eq, List.length_drop, hperm.length_eq, hk]
      omega
    · intro f hf hnk
      by_cases hfm : f ∈ pageMarked l p maxN
      · exact hfm
      · exact absurd (List.mem_filter.mpr ⟨hf, by simp [hfm]⟩) hnk
    · intro f hfm g hg
      have hgdrop : g ∈ srt.drop k := hkept_perm.mem_iff.mp hg
      have hftake : f ∈ srt.take k := by rw [hmk] at hfm; exact hfm
      constructor
      · have hsorted : List.Sorted entryLe srt :=
          List.sorted_insertionSort entryLe gp
        have hpw : List.Pairwise entryLe (srt.take k ++ srt.drop k) := by
          rw [hsplit]; exact hsorted
        exact (List.pairwise_append.mp hpw).2.2 f hftake g hgdrop
      · intro hfg
        exact hdisj f hftake (hfg ▸ hgdrop)
  · have hmk : pageMarked l p maxN = [] := by
      unfold pageMarked
      rw [← hgp, if_neg hlen]
    rw [hmk]
    have hfil : (gp.filter fun c => !(decide (c ∈ ([] : List FileEntry)))) = gp := by
      apply List.filter_eq_self.mpr
      intro a _
      simp
    refine ⟨?_, ?_, ?_⟩
    · rw [hfil]
      omega
    · intro f hf hnk
      rw [hfil] at hnk
      exact absurd hf hnk
    · intro f hfm
      cases hfm

/-- C5, counterexample: two artifacts carrying the identical `capturedAt`
timestamp are treated differently by the age pass — the one with an old
file mtime is evicted, the one with a fresh mtime is kept. Were eviction
decided by `now - capturedAt` (as the claim states), identical capture
times would force identical decisions; the code instead uses
`stats.mtime`. -/
theorem age_eviction_ignores_capture_time :
    capturedAtD agedTwinOld = capturedAtD agedTwinNew ∧
    cleanupOldBackups ⟨true, [agedTwinOld, agedTwinNew]⟩ 2592000001 5 30 =
      (.ok, [agedTwinNew]) := by
  refine ⟨by decide, by decide⟩

/-- C8, counterexample: when the backup fails during `update-page` (backups
enabled), the mutation still runs, the response is not an error, and it is
byte-for-byte identical to the response of a run that deliberately skipped
the backup — the caller is NOT told that no backup exists before the
mutation proceeds. -/
theorem update_page_proceeds_unprotected :
    (updatePageTool "p1" false (.failure "disk full")).2 = true ∧
    (updatePageTool "p1" false (.failure "disk full")).1.isError = false ∧
    updatePageTool "p1" false (.failure "disk full") =
      updatePageTool "p1" true (.success "x") := by
  refine ⟨rfl, rfl, rfl⟩

/-- C8, amended: only `delete-page` protects the mutation — a backup
failure aborts the deletion with an explicit error response — while
`update-page` proceeds with the mutation after a backup failure and
returns a success response indistinguishable from a skip-backup run
(the failure is only logged server-side). -/
theorem backup_failure_aborts_delete_only (pageId m : String) :
    deletePageTool pageId false (.failure m) =
      (⟨true,
        "Safety procedure failed: Could not create backup before deletion. Operation aborted. Error: "
          ++ m⟩,
       false) ∧
    (∀ out : BackupResult,
      updatePageTool pageId false (.failure m) = updatePageTool pageId true out) ∧
    (updatePageTool pageId false (.failure m)).2 = true := by
  refine ⟨rfl, ?_, rfl⟩
  intro out
  cases out <;> rfl

/-- C9: listing backups is total. It returns the empty list when the
backup directory does not exist, when the directory read fails, and — via
the catch — whenever any filesystem read during enumeration fails; it
never propagates an error. -/
theorem listing_total (fs : ListFS) (pageId : String) :
    (fs.dirExists = false → listPageBackups fs pageId = []) ∧
    (fs.readdirResult = none → listPageBackups fs pageId = []) ∧
    (∀ e, listPageBackupsE fs pageId = .error e → listPageBackups fs pageId = []) := by
  refine ⟨?_, ?_, ?_⟩
  · intro h
    unfold listPageBackups listPageBackupsE
    rw [h]
    rfl
  · intro h
    unfold listPageBackups listPageBackupsE
    cases hd : fs.dirExists
    · rfl
    · rw [h]
      rfl
  · intro e h
    unfold listPageBackups
    rw [h]

/-- Witness for C9 at two concrete filesystems: one whose backup directory
is missing, one whose directory read throws — both return the empty
list. -/
theorem listing_total_witness :
    listPageBackups ⟨false, some [], fun _ => none⟩ "p" = [] ∧
    listPageBackups ⟨true, none, fun _ => none⟩ "p" = [] :=
  ⟨(listing_total ⟨false, some [], fun _ => none⟩ "p").1 rfl,
   (listing_total ⟨true, none, fun _ => none⟩ "p").2.1 rfl⟩

theorem lexLe_antisymm : ∀ a b : List Char,
    lexLe a b = true → lexLe b a = true → a = b := by
  intro a
  induction a with
  | nil =>
    intro b _ hba
    cases b with
    | nil => rfl
    | cons y ys => simp [lexLe] at hba
  | cons x xs ih =>
    intro b hab hba
    cases b with
    | nil => simp [lexLe] at hab
    | cons y ys =>
      simp only [lexLe] at hab hba
      by_cases hxy : x < y
      · have : ¬ y < x := asymm hxy
        simp [hxy, this] at hba
      · by_cases hyx : y < x
        · simp [hxy, hyx] at hab
        · have hxey : x = y := le_antisymm (not_lt.mp hyx) (not_lt.mp hxy)
          subst hxey
          simp only [lt_irrefl, if_false] at hab hba
          rw [ih ys hab hba]

theorem lexLt_of_lexLe_of_ne : ∀ a b : List Char,
    lexLe a b = true → a ≠ b → lexLt a b = true := by
  intro a
  induction a with
  | nil =>
    intro b _ hne
    cases b with
    | nil => exact absurd rfl hne
    | cons y ys => rfl
  | cons x xs ih =>
    intro b hab hne
    cases b with
    | nil => simp [lexLe] at hab
    | cons y ys =>
      simp only [lexLe] at hab
      simp only [lexLt]
      by_cases hxy : x < y
      · simp [hxy]
      · by_cases hyx : y < x
        · simp [hxy, hyx] at hab
        · have hxey : x = y := le_antisymm (not_lt.mp hyx) (not_lt.mp hxy)
          subst hxey
          simp only [lt_irrefl, if_false] at hab ⊢
          have hne' : xs ≠ ys := by
            intro h; exact hne (by rw [h])
          exact ih ys hab hne'

theorem lexLe_of_lexLt : ∀ a b : List Char, lexLt a b = true → lexLe a b = true := by
  intro a
  induction a with
  | nil => intro b _; rfl
  | cons x xs ih =>
    intro b hab
    cases b with
    | nil => simp [lexLt] at hab
    | cons y ys =>
      simp only [lexLt] at hab
      simp only [lexLe]
      by_cases hxy : x < y
      · simp [hxy]
      · by_cases hyx : y < x
        · simp [hxy, hyx] at hab
        · simp only [hxy, hyx, if_false] at hab ⊢
          exact ih ys hab

theorem lexLt_irrefl : ∀ a : List Char, lexLt a a = false := by
  intro a
  induction a with
  | nil => rfl
  | cons x xs ih => simp [lexLt, ih]

theorem drainLoop_eq_drop (g : Gateway) (blockId : String) :
    ∀ fuel cursor, (g.children blockId).length - cursor < fuel →
      drainLoop g blockId fuel cursor = (g.children blockId).drop cursor := by
  intro fuel
  induction fuel with
  | zero => intro cursor hc; omega
  | succ fuel ih =>
    intro cursor hc
    rw [drainLoop]
    simp only [listChildrenPage]
    by_cases h : cursor + DEFAULT_PAGE_SIZE < (g.children blockId).length
    · rw [if_pos (by simp only [decide_eq_true_eq]; exact h)]
      rw [ih (cursor + DEFAULT_PAGE_SIZE)
        (by simp only [DEFAULT_PAGE_SIZE] at h ⊢; omega)]
      rw [← List.drop_drop]
      exact List.take_append_drop _ _
    · rw [if_neg (by simp only [decide_eq_true_eq]; exact h)]
      exact List.take_of_length_le (by simp only [List.length_drop]; omega)

/-- The drained pagination chain is exactly the Gateway's full child list
from the cursor on. -/
theorem drainChildren_eq (g : Gateway) (blockId : String) :
    ∀ cursor, drainChildren g blockId cursor = (g.children blockId).drop cursor := by
  intro cursor
  exact drainLoop_eq_drop g blockId _ cursor (by omega)

theorem concatMap_append (f : α → List β) (l₁ l₂ : List α) :
    concatMap f (l₁ ++ l₂) = concatMap f l₁ ++ concatMap f l₂ := by
  induction l₁ with
  | nil => rfl
  | cons a as ih => simp [concatMap, ih]

theorem blocksAt_append (n : Nat) (l₁ l₂ : List PBlock) :
    blocksAt n (l₁ ++ l₂) = blocksAt n l₁ ++ blocksAt n l₂ := by
  induction n generalizing l₁ l₂ with
  | zero => rfl
  | succ n ih => simp [blocksAt, concatMap_append, ih]

theorem blocksAt_nil (n : Nat) : blocksAt n ([] : List PBlock) = [] := by
  induction n with
  | zero => rfl
  | succ n ih => simp [blocksAt, concatMap, ih]

/-- The recursion reaches no block more than `m` levels below the root when
the budget is `m`: the level-`m` slice of the materialized forest is empty. -/
theorem blocksAt_budget_fetchAux (g : Gateway) :
    ∀ m blockId, blocksAt m (fetchAux g blockId m) = [] := by
  intro m
  induction m with
  | zero => intro blockId; rfl
  | succ m ih =>
    intro blockId
    show blocksAt m (concatMap childrenOrNil (fetchAux g blockId (m + 1))) = []
    rw [concatMap_children_fetchAux]
    generalize drainChildren g blockId 0 = l
    induction l with
    | nil => exact blocksAt_nil m
    | cons b bs ihl =>
      simp only [concatMap, blocksAt_append, ihl]
      by_cases hb : b.hasChildren
      · simp [hb, ih b.id]
      · simp [hb, blocksAt_nil]

/-- Every block in the deepest materialized level (budget exhausted right
below it) carries `children = some []` when it has remote children, and
`children = none` when it does not. -/
theorem blocksAt_last_level_fetchAux (g : Gateway) :
    ∀ m blockId b, b ∈ blocksAt m (fetchAux g blockId (m + 1)) →
      (b.has_children = true → b.children = some []) ∧
      (b.has_children = false → b.children = none) := by
  intro m
  induction m with
  | zero =>
    intro blockId b hb
    simp only [blocksAt, fetchAux, List.mem_map] at hb
    obtain ⟨rb, _, rfl⟩ := hb
    by_cases hc : rb.hasChildren
    · simp [PBlock.has_children, PBlock.children, hc, fetchAux]
    · simp [PBlock.has_children, PBlock.children, hc]
  | succ m ih =>
    intro blockId b hb
    have hb' : b ∈ blocksAt m (concatMap childrenOrNil (fetchAux g blockId (m + 2))) :=
      hb
    rw [concatMap_children_fetchAux] at hb'
    clear hb
    revert hb'
    generalize drainChildren g blockId 0 = l
    induction l with
    | nil => intro hb'; simp [concatMap, blocksAt_nil] at hb'
    | cons rb rbs ihl =>
      intro hb'
      simp only [concatMap, blocksAt_append, List.mem_append] at hb'
      rcases hb' with h1 | h1
      · by_cases hc : rb.hasChildren
        · simp only [hc, if_true] at h1
          exact ih rb.id b h1
        · simp [hc, blocksAt_nil] at h1
      · exact ihl h1

/-- C2, amended: when the depth budget is exhausted, `children` is present
and empty — not absent. For every Gateway and every `maxDepth = d ≥ 1`,
each block on the deepest fetched level (`d - 1` levels below the root)
has `children = some []` when its `has_children` flag is true and
`children = none` otherwise, and the recursion never descends more than
`d` levels: the level-`d` slice of the result is empty. -/
theorem depth_limit_children_empty_and_bounded (g : Gateway) (root : String)
    (d : Nat) (hd : 1 ≤ d) :
    (∀ b ∈ blocksAt (d - 1) (fetchAllBlocks g root d 0),
        (b.has_children = true → b.children = some []) ∧
        (b.has_children = false → b.children = none)) ∧
    blocksAt d (fetchAllBlocks g root d 0) = [] := by
  obtain ⟨m, rfl⟩ : ∃ m, d = m + 1 := ⟨d - 1, by omega⟩
  constructor
  · intro b hb
    have : b ∈ blocksAt m (fetchAux g root (m + 1)) := by
      simpa [fetchAllBlocks] using hb
    exact blocksAt_last_level_fetchAux g m root b this
  · have : blocksAt (m + 1) (fetchAux g root (m + 1)) = [] :=
      blocksAt_budget_fetchAux g (m + 1) root
    simpa [fetchAllBlocks] using this

/-- Witness for the amended C2 theorem at the concrete gateway `gDeep`,
`maxDepth = 3`: the depth bound holds there. -/
theorem depth_limit_children_empty_and_bounded_witness :
    blocksAt 3 (fetchAllBlocks gDeep "r" 3 0) = [] :=
  (depth_limit_children_empty_and_bounded gDeep "r" 3 (by omega)).2

theorem foldl_deleteBlock_children (l : List RemoteBlock) :
    ∀ page : RemotePage,
      (l.foldl (fun p b => deleteBlock p b.id) page).children =
        page.children.filter (fun c => ¬ c.id ∈ l.map RemoteBlock.id) ∧
      (l.foldl (fun p b => deleteBlock p b.id) page).properties =
        page.properties := by
  induction l with
  | nil =>
    intro page
    simp [List.foldl]
  | cons b bs ih =>
    intro page
    obtain ⟨hc, hp⟩ := ih (deleteBlock page b.id)
    constructor
    · rw [List.foldl_cons, hc]
      simp only [deleteBlock, List.filter_filter]
      apply List.filter_congr
      intro c _
      simp only [List.map_cons, List.mem_cons, decide_not, Bool.and_comm]
      simp [not_or, decide_eq_true_eq]
    · rw [List.foldl_cons, hp]
      rfl

/-- C3, amended: restore replaces the page's top-level content exactly
WHEN the page currently has at most 100 top-level children (the single
unpaginated list call sees all of them). Then afterwards the children are
exactly the snapshot's top-level blocks, stripped of their original ids
and carrying the server-assigned ones, and the page's properties are the
snapshot's. -/
theorem restore_replaces_children_upto_page_size (page : RemotePage)
    (backup : BackupContent) (freshIds : List String)
    (hlen : page.children.length ≤ 100) :
    (restoreFromBackup page backup freshIds).children =
      List.zipWith RemoteBlock.mk freshIds (backup.blocks.map fun b => b.content) ∧
    (restoreFromBackup page backup freshIds).properties = backup.properties := by
  have htake : page.children.take DEFAULT_PAGE_SIZE = page.children :=
    List.take_of_length_le (by simpa [DEFAULT_PAGE_SIZE] using hlen)
  obtain ⟨hc, hp⟩ :=
    foldl_deleteBlock_children (page.children.take DEFAULT_PAGE_SIZE)
      { page with properties := backup.properties }
  have hdel :
      ((page.children.take DEFAULT_PAGE_SIZE).foldl (fun p b => deleteBlock p b.id)
        { page with properties := backup.properties }).children = [] := by
    rw [hc, htake]
    apply List.filter_eq_nil_iff.mpr
    intro c hcmem
    simp only [decide_eq_true_eq, not_not]
    exact List.mem_map_of_mem RemoteBlock.id hcmem
  constructor
  · show ((page.children.take DEFAULT_PAGE_SIZE).foldl (fun p b => deleteBlock p b.id)
        { page with properties := backup.properties }).children ++ _ = _
    rw [hdel]
    rfl
  · show ((page.children.take DEFAULT_PAGE_SIZE).foldl (fun p b => deleteBlock p b.id)
        { page with properties := backup.properties }).properties = _
    rw [hp]

/-- Witness for the amended C3 theorem: a page with 5 unrelated top-level
blocks restored from a 3-block snapshot ends with exactly the 3 snapshot
blocks under fresh ids and none of the original 5. -/
theorem restore_replaces_children_upto_page_size_witness :
    (restoreFromBackup
        ⟨"oldProps", [⟨"o1", "c1"⟩, ⟨"o2", "c2"⟩, ⟨"o3", "c3"⟩, ⟨"o4", "c4"⟩,
          ⟨"o5", "c5"⟩]⟩
        ⟨"pg", "snapProps", [⟨"s1", "x"⟩, ⟨"s2", "y"⟩, ⟨"s3", "z"⟩]⟩
        ["n1", "n2", "n3"]).children =
      [⟨"n1", "x"⟩, ⟨"n2", "y"⟩, ⟨"n3", "z"⟩] := by
  have h :=
    restore_replaces_children_upto_page_size
      ⟨"oldProps", [⟨"o1", "c1"⟩, ⟨"o2", "c2"⟩, ⟨"o3", "c3"⟩, ⟨"o4", "c4"⟩,
        ⟨"o5", "c5"⟩]⟩
      ⟨"pg", "snapProps", [⟨"s1", "x"⟩, ⟨"s2", "y"⟩, ⟨"s3", "z"⟩]⟩
      ["n1", "n2", "n3"] (by decide)
  exact h.1

/-- Witness for the amended C7 theorem at a concrete store. -/
theorem retention_returns_success_flag_witness :
    ((cleanupOldBackups ⟨false, []⟩ 0 5 30).1 = .noDir ↔
      (⟨false, []⟩ : CleanupFS).dirExists = false) :=
  retention_returns_success_flag ⟨false, []⟩ 0 5 30

/-- In a directory with no duplicate names, a name identifies its entry. -/
theorem eq_of_name_eq : ∀ {l : List FileEntry},
    ((l.map FileEntry.name).Nodup) → ∀ {a b : FileEntry},
      a ∈ l → b ∈ l → a.name = b.name → a = b := by
  intro l
  induction l with
  | nil => intro _ a b ha _ _; cases ha
  | cons c cs ih =>
    intro hnd a b ha hb hab
    rw [List.map_cons, List.nodup_cons] at hnd
    rcases List.mem_cons.mp ha with rfl | ha' <;>
      rcases List.mem_cons.mp hb with rfl | hb'
    · rfl
    · exact absurd (hab ▸ List.mem_map_of_mem FileEntry.name hb') hnd.1
    · exact absurd (hab ▸ List.mem_map_of_mem FileEntry.name ha') hnd.1
    · exact ih hnd.2 ha' hb' hab

/-- A batch of deletions over files that are all present, distinct, and
deletable succeeds and removes exactly those files. -/
theorem runDeletes_clean : ∀ (l current : List FileEntry),
    (∀ f ∈ l, f ∈ current) →
    ((current.map FileEntry.name).Nodup) →
    ((l.map FileEntry.name).Nodup) →
    (∀ f ∈ l, f.unlinkFails = false) →
    runDeletes current l = (true, current.filter fun c => !(decide (c ∈ l))) := by
  intro l
  induction l with
  | nil =>
    intro current _ _ _ _
    simp [runDeletes, List.filter_true]
  | cons f rest ih =>
    intro current hsub hcn hln hok
    have hf : f ∈ current := hsub f (List.mem_cons_self f rest)
    have hany : (current.any fun c => c.name = f.name) = true :=
      List.any_eq_true.mpr ⟨f, hf, by simp⟩
    have hfn : f.name ∉ rest.map FileEntry.name := by
      rw [List.map_cons, List.nodup_cons] at hln
      exact hln.1
    simp only [runDeletes, hany, if_true, hok f (List.mem_cons_self f rest),
      Bool.false_eq_true, if_false]
    rw [ih (current.filter fun c => c.name ≠ f.name)
      (by
        intro g hg
        refine List.mem_filter.mpr ⟨hsub g (List.mem_cons_of_mem f hg), ?_⟩
        simp only [decide_eq_true_eq]
        intro hgf
        exact hfn (hgf ▸ List.mem_map_of_mem FileEntry.name hg))
      (((List.filter_sublist current).map FileEntry.name).nodup hcn)
      (by rw [List.map_cons, List.nodup_cons] at hln; exact hln.2)
      (fun g hg => hok g (List.mem_cons_of_mem f hg))]
    rw [List.filter_filter]
    refine congrArg (Prod.mk true) (List.filter_congr ?_)
    intro c hc
    by_cases hcf : c.name = f.name
    · have : c = f := eq_of_name_eq hcn hc hf hcf
      subst this
      simp
    · have hcnef : c ≠ f := fun h => hcf (h ▸ rfl)
      simp [hcf, hcnef]

/-- When the count pass deleted nothing, the age pass stats every listed
file successfully and deletes exactly the expired ones. -/
theorem agePass_complete (nowMs maxAgeMs : Int) :
    ∀ (l current : List FileEntry),
      (∀ f ∈ l, f ∈ current) →
      ((current.map FileEntry.name).Nodup) →
      ((l.map FileEntry.name).Nodup) →
      (∀ f ∈ l, f.unlinkFails = false) →
      agePass nowMs maxAgeMs current l =
        (true, current.filter fun c =>
          !(decide (c ∈ l) && decide (nowMs - c.mtime > maxAgeMs))) := by
  intro l
  induction l with
  | nil =>
    intro current _ _ _ _
    simp [agePass, List.filter_true]
  | cons f rest ih =>
    intro current hsub hcn hln hok
    have hf : f ∈ current := hsub f (List.mem_cons_self f rest)
    have hany : (current.any fun c => c.name = f.name) = true :=
      List.any_eq_true.mpr ⟨f, hf, by simp⟩
    have hfn : f.name ∉ rest.map FileEntry.name := by
      rw [List.map_cons, List.nodup_cons] at hln
      exact hln.1
    have hfnrest : f ∉ rest := fun h => hfn (List.mem_map_of_mem FileEntry.name h)
    simp only [agePass, hany, if_true]
    by_cases hold : nowMs - f.mtime > maxAgeMs
    · rw [if_pos hold, hok f (List.mem_cons_self f rest)]
      simp only [Bool.false_eq_true, if_false]
      rw [ih (current.filter fun c => c.name ≠ f.name)
        (by
          intro g hg
          refine List.mem_filter.mpr ⟨hsub g (List.mem_cons_of_mem f hg), ?_⟩
          simp only [decide_eq_true_eq]
          intro hgf
          exact hfn (hgf ▸ List.mem_map_of_mem FileEntry.name hg))
        (((List.filter_sublist current).map FileEntry.name).nodup hcn)
        (by rw [List.map_cons, List.nodup_cons] at hln; exact hln.2)
        (fun g hg => hok g (List.mem_cons_of_mem f hg))]
      rw [List.filter_filter]
      refine congrArg (Prod.mk true) (List.filter_congr ?_)
      intro c hc
      by_cases hcf : c.name = f.name
      · have : c = f := eq_of_name_eq hcn hc hf hcf
        subst this
        simp [hold]
      · have hcnef : c ≠ f := fun h => hcf (h ▸ rfl)
        simp [hcf, hcnef]
    · rw [if_neg hold]
      rw [ih current
        (fun g hg => hsub g (List.mem_cons_of_mem f hg)) hcn
        (by rw [List.map_cons, List.nodup_cons] at hln; exact hln.2)
        (fun g hg => hok g (List.mem_cons_of_mem f hg))]
      refine congrArg (Prod.mk true) (List.filter_congr ?_)
      intro c hc
      by_cases hcf : c = f
      · subst hcf
        simp [hold, hfnrest]
      · simp [hcf]

theorem groupLookup_addToGroups (pid : String) (f : FileEntry) (p : String) :
    ∀ gs, groupLookup (addToGroups gs pid f) p =
      if p = pid then groupLookup gs p ++ [f] else groupLookup gs p := by
  intro gs
  induction gs with
  | nil =>
    simp only [addToGroups, groupLookup]
    by_cases h : p = pid
    · subst h
      simp [groupLookup]
    · rw [if_neg h, if_neg fun hh => h hh.symm]
  | cons kg rest ih =>
    obtain ⟨k, g⟩ := kg
    simp only [addToGroups]
    by_cases hk : k = pid
    · subst hk
      rw [if_pos rfl]
      simp only [groupLookup]
      by_cases hp : k = p
      · subst hp
        rw [if_pos rfl, if_pos rfl, if_pos rfl]
      · rw [if_neg hp, if_neg hp, if_neg fun hh => hp hh.symm]
    · rw [if_neg hk]
      simp only [groupLookup]
      by_cases hp : k = p
      · subst hp
        rw [if_neg hk, if_pos rfl, if_pos rfl]
      · rw [if_neg hp, if_neg hp, ih]

theorem groupLookup_groupStep (f : FileEntry) (p : String) (gs : List (String × List FileEntry)) :
    groupLookup (groupStep gs f) p =
      if pageOf f = some p then groupLookup gs p ++ [f] else groupLookup gs p := by
  unfold groupStep pageOf
  cases hm : matchBackupName f.name with
  | none => simp
  | some pr =>
    obtain ⟨pid, ts⟩ := pr
    rw [groupLookup_addToGroups]
    simp only [Option.map_some']
    by_cases h : p = pid
    · subst h
      rw [if_pos rfl, if_pos rfl]
    · rw [if_neg h, if_neg fun hh => h (Option.some.inj hh).symm]

theorem groupLookup_foldl (p : String) :
    ∀ (l : List FileEntry) (gs : List (String × List FileEntry)),
      groupLookup (l.foldl groupStep gs) p =
        groupLookup gs p ++ l.filter fun f => decide (pageOf f = some p) := by
  intro l
  induction l with
  | nil => intro gs; simp
  | cons f fs ih =>
    intro gs
    rw [List.foldl_cons, ih (groupStep gs f), groupLookup_groupStep]
    by_cases h : pageOf f = some p
    · rw [if_pos h]
      simp [List.filter_cons, h]
    · rw [if_neg h]
      simp [List.filter_cons, h]

/-- The group stored for key `p` is exactly the files parsing to page `p`,
in encounter order. -/
theorem groupByPage_lookup (l : List FileEntry) (p : String) :
    groupLookup (groupByPage l) p = l.filter fun f => decide (pageOf f = some p) := by
  unfold groupByPage
  rw [groupLookup_foldl]
  rfl

theorem groupKeys_addToGroups (pid : String) (f : FileEntry) :
    ∀ gs, groupKeys (addToGroups gs pid f) =
      if pid ∈ groupKeys gs then groupKeys gs else groupKeys gs ++ [pid] := by
  intro gs
  induction gs with
  | nil => simp [addToGroups, groupKeys]
  | cons kg rest ih =>
    obtain ⟨k, g⟩ := kg
    simp only [addToGroups]
    by_cases hk : k = pid
    · subst hk
      rw [if_pos rfl]
      simp [groupKeys]
    · rw [if_neg hk]
      simp only [groupKeys, List.map_cons, List.mem_cons]
      by_cases hmem : pid ∈ List.map Prod.fst rest
      · rw [if_pos (Or.inr hmem)]
        simp only [groupKeys] at ih
        rw [if_pos hmem] at ih
        rw [ih]
      · rw [if_neg (by
          intro hor
          rcases hor with h | h
          exact hk h.symm
          exact hmem h)]
        simp only [groupKeys] at ih
        rw [if_neg hmem] at ih
        rw [ih, List.cons_append]

theorem groupKeys_nodup_groupStep (gs : List (String × List FileEntry))
    (f : FileEntry) (h : (groupKeys gs).Nodup) :
    (groupKeys (groupStep gs f)).Nodup := by
  unfold groupStep
  cases hm : matchBackupName f.name with
  | none => exact h
  | some pr =>
    obtain ⟨pid, ts⟩ := pr
    rw [groupKeys_addToGroups]
    by_cases hmem : pid ∈ groupKeys gs
    · rw [if_pos hmem]; exact h
    · rw [if_neg hmem]
      rw [List.nodup_append]
      exact ⟨h, List.nodup_singleton pid,
        fun a ha => by simp only [List.mem_singleton]; intro hp; exact hmem (hp ▸ ha)⟩

/-- The grouping produces one group per page id. -/
theorem groupByPage_keys_nodup (l : List FileEntry) :
    (groupKeys (groupByPage l)).Nodup := by
  unfold groupByPage
  suffices h : ∀ gs, (groupKeys gs).Nodup → (groupKeys (l.foldl groupStep gs)).Nodup from
    h [] (by simp [groupKeys])
  induction l with
  | nil => intro gs hgs; exact hgs
  | cons f fs ih =>
    intro gs hgs
    rw [List.foldl_cons]
    exact ih (groupStep gs f) (groupKeys_nodup_groupStep gs f hgs)

theorem groupLookup_of_mem : ∀ (gs : List (String × List FileEntry)) (pg : String × List FileEntry),
    (groupKeys gs).Nodup → pg ∈ gs → groupLookup gs pg.1 = pg.2 := by
  intro gs
  induction gs with
  | nil => intro pg _ hpg; cases hpg
  | cons kg rest ih =>
    obtain ⟨k, g⟩ := kg
    intro pg hnd hpg
    simp only [groupKeys, List.map_cons, List.nodup_cons] at hnd
    rcases List.mem_cons.mp hpg with rfl | hpg'
    · simp [groupLookup]
    · simp only [groupLookup]
      rw [if_neg, ih pg (by exact hnd.2) hpg']
      intro hk
      exact hnd.1 (hk ▸ List.mem_map_of_mem Prod.fst hpg')

theorem mem_of_groupLookup_ne_nil : ∀ (gs : List (String × List FileEntry)) (p : String),
    groupLookup gs p ≠ [] → (p, groupLookup gs p) ∈ gs := by
  intro gs
  induction gs with
  | nil => intro p h; exact absurd rfl h
  | cons kg rest ih =>
    obtain ⟨k, g⟩ := kg
    intro p h
    simp only [groupLookup] at h ⊢
    by_cases hk : k = p
    · subst hk
      rw [if_pos rfl] at h ⊢
      exact List.mem_cons_self _ _
    · rw [if_neg hk] at h ⊢
      exact List.mem_cons_of_mem _ (ih p h)

/-- Each group of `groupByPage l` is the filter of `l` on its key. -/
theorem mem_groupByPage_eq_filter (l : List FileEntry) (pg : String × List FileEntry)
    (h : pg ∈ groupByPage l) :
    pg.2 = l.filter fun f => decide (pageOf f = some pg.1) := by
  rw [← groupByPage_lookup l pg.1]
  exact (groupLookup_of_mem (groupByPage l) pg (groupByPage_keys_nodup l) h).symm

theorem mem_concatMap {g : α → List β} {b : β} :
    ∀ {l : List α}, b ∈ concatMap g l ↔ ∃ a ∈ l, b ∈ g a := by
  intro l
  induction l with
  | nil => simp [concatMap]
  | cons a as ih => simp [concatMap, ih, List.mem_append]

/-- The deletion slice the count pass takes from one group. -/
theorem mem_toDelete {pg : String × List FileEntry} {maxN : Nat} {f : FileEntry}
    (h : f ∈ (if pg.2.length > maxN then
        (List.insertionSort entryLe pg.2).take (pg.2.length - maxN) else [])) :
    f ∈ pg.2 := by
  by_cases hlen : pg.2.length > maxN
  · rw [if_pos hlen] at h
    exact (List.mem_insertionSort entryLe).mp ((List.take_sublist _ _).subset h)
  · rw [if_neg hlen] at h
    cases h

/-- For a file of page `p`, being marked by the count pass is being in the
page-`p` slice. -/
theorem mem_countMarked_iff (l : List FileEntry) (maxN : Nat) (f : FileEntry)
    (p : String) (hp : pageOf f = some p) :
    f ∈ countMarked (groupByPage l) maxN ↔ f ∈ pageMarked l p maxN := by
  constructor
  · intro h
    obtain ⟨pg, hpg, hf⟩ := mem_concatMap.mp h
    have heq := mem_groupByPage_eq_filter l pg hpg
    have hfin : f ∈ pg.2 := mem_toDelete hf
    have hfp : pageOf f = some pg.1 := by
      rw [heq] at hfin
      exact of_decide_eq_true (List.mem_filter.mp hfin).2
    have hp1 : pg.1 = p := Option.some.inj (hfp.symm.trans hp)
    unfold pageMarked
    rw [← hp1, ← heq]
    exact hf
  · intro h
    have hgp : f ∈ l.filter fun g => decide (pageOf g = some p) :=
      @mem_toDelete (p, l.filter fun g => decide (pageOf g = some p)) maxN f
        (by exact h)
    have hne : l.filter (fun g => decide (pageOf g = some p)) ≠ [] :=
      List.ne_nil_of_mem hgp
    have hlook := groupByPage_lookup l p
    have hmem : (p, l.filter fun g => decide (pageOf g = some p)) ∈ groupByPage l := by
      rw [← hlook]
      exact mem_of_groupLookup_ne_nil (groupByPage l) p (by rw [hlook]; exact hne)
    exact mem_concatMap.mpr
      ⟨(p, l.filter fun g => decide (pageOf g = some p)), hmem, by exact h⟩

theorem countMarked_of_mem {gs : List (String × List FileEntry)} {maxN : Nat}
    {f : FileEntry} (h : f ∈ countMarked gs maxN) : ∃ pg ∈ gs, f ∈ pg.2 := by
  obtain ⟨pg, hpg, hf⟩ := mem_concatMap.mp h
  exact ⟨pg, hpg, mem_toDelete hf⟩

/-- Everything the count pass marks is a listed backup file. -/
theorem countMarked_subset {l : List FileEntry} {maxN : Nat} {f : FileEntry}
    (h : f ∈ countMarked (groupByPage l) maxN) : f ∈ l := by
  obtain ⟨pg, hpg, hf⟩ := countMarked_of_mem h
  rw [mem_groupByPage_eq_filter l pg hpg] at hf
  exact (List.mem_filter.mp hf).1

/-- The page key is a function of the filename alone. -/
theorem pageOf_eq_of_name_eq {f g : FileEntry} (h : f.name = g.name) :
    pageOf f = pageOf g := by
  unfold pageOf
  rw [h]

theorem countMarked_names_nodup_aux : ∀ (gs : List (String × List FileEntry)) (maxN : Nat),
    (groupKeys gs).Nodup →
    (∀ pg ∈ gs, (pg.2.map FileEntry.name).Nodup) →
    (∀ pg ∈ gs, ∀ f ∈ pg.2, pageOf f = some pg.1) →
    ((countMarked gs maxN).map FileEntry.name).Nodup := by
  intro gs
  induction gs with
  | nil => intro maxN _ _ _; simp [countMarked, concatMap]
  | cons pg rest ih =>
    intro maxN hkeys hnames hpage
    have hkeys' : (groupKeys rest).Nodup ∧ pg.1 ∉ groupKeys rest := by
      simp only [groupKeys, List.map_cons, List.nodup_cons] at hkeys
      exact ⟨hkeys.2, hkeys.1⟩
    show (((concatMap _ (pg :: rest)).map FileEntry.name)).Nodup
    rw [show concatMap
        (fun pg => if pg.2.length > maxN then
          (List.insertionSort entryLe pg.2).take (pg.2.length - maxN) else [])
        (pg :: rest) =
      (if pg.2.length > maxN then
          (List.insertionSort entryLe pg.2).take (pg.2.length - maxN) else []) ++
        countMarked rest maxN from rfl]
    rw [List.map_append, List.nodup_append]
    refine ⟨?_, ?_, ?_⟩
    · by_cases hlen : pg.2.length > maxN
      · rw [if_pos hlen, List.map_take]
        refine ((List.take_sublist _ _).nodup ?_)
        exact (((List.perm_insertionSort entryLe pg.2).map FileEntry.name).nodup_iff).mpr
          (hnames pg (List.mem_cons_self pg rest))
      · rw [if_neg hlen]
        simp
    · exact ih maxN hkeys'.1
        (fun qg hq => hnames qg (List.mem_cons_of_mem pg hq))
        (fun qg hq => hpage qg (List.mem_cons_of_mem pg hq))
    · intro x hx hx2
      obtain ⟨f, hf, hfx⟩ := List.mem_map.mp hx
      obtain ⟨h, hh, hhx⟩ := List.mem_map.mp hx2
      obtain ⟨qg, hqg, hhq⟩ := countMarked_of_mem hh
      have hfp : pageOf f = some pg.1 :=
        hpage pg (List.mem_cons_self pg rest) f (mem_toDelete hf)
      have hhp : pageOf h = some qg.1 :=
        hpage qg (List.mem_cons_of_mem pg hqg) h hhq
      have hnm : f.name = h.name := by rw [hfx, hhx]
      have : some pg.1 = some qg.1 := by
        rw [← hfp, ← hhp, pageOf_eq_of_name_eq hnm]
      have hk1 : pg.1 = qg.1 := Option.some.inj this
      exact hkeys'.2 (hk1 ▸ List.mem_map_of_mem Prod.fst hqg)

/-- The count pass never marks two files with the same name. -/
theorem countMarked_names_nodup (l : List FileEntry) (maxN : Nat)
    (hl : (l.map FileEntry.name).Nodup) :
    ((countMarked (groupByPage l) maxN).map FileEntry.name).Nodup := by
  refine countMarked_names_nodup_aux (groupByPage l) maxN (groupByPage_keys_nodup l)
    ?_ ?_
  · intro pg hpg
    rw [mem_groupByPage_eq_filter l pg hpg]
    exact ((List.filter_sublist l).map FileEntry.name).nodup hl
  · intro pg hpg f hf
    rw [mem_groupByPage_eq_filter l pg hpg] at hf
    exact of_decide_eq_true (List.mem_filter.mp hf).2

/-- The directory contents after a clean cleanup run (every unlink
succeeds, nothing is past the age limit): exactly the count-marked files
are gone. -/
theorem cleanup_remaining_of_clean (fs : CleanupFS) (nowMs : Int) (maxN : Nat)
    (maxAge : Int)
    (hdir : fs.dirExists = true)
    (hok : ∀ f ∈ fs.files, f.unlinkFails = false)
    (hnodup : (fs.files.map FileEntry.name).Nodup)
    (hyoung : ∀ f ∈ fs.files, nowMs - f.mtime ≤ maxAge * 24 * 60 * 60 * 1000) :
    (cleanupOldBackups fs nowMs maxN maxAge).2 =
      fs.files.filter fun c =>
        !(decide (c ∈ countMarked
          (groupByPage (fs.files.filter fun f => isBackupName f.name)) maxN)) := by
  rw [cleanup_eq_of_dirExists fs nowMs maxN maxAge hdir]
  have hmsub : ∀ f ∈ countMarked
      (groupByPage (fs.files.filter fun f => isBackupName f.name)) maxN,
      f ∈ fs.files := fun f hf => (List.mem_filter.mp (countMarked_subset hf)).1
  have hmnodup : ((countMarked
      (groupByPage (fs.files.filter fun f => isBackupName f.name)) maxN).map
        FileEntry.name).Nodup :=
    countMarked_names_nodup _ maxN
      (((List.filter_sublist fs.files).map FileEntry.name).nodup hnodup)
  have hrd := runDeletes_clean
    (countMarked (groupByPage (fs.files.filter fun f => isBackupName f.name)) maxN)
    fs.files hmsub hnodup hmnodup (fun f hf => hok f (hmsub f hf))
  rw [hrd]
  rcases hap : agePass nowMs (maxAge * 24 * 60 * 60 * 1000)
      (fs.files.filter fun c =>
        !(decide (c ∈ countMarked
          (groupByPage (fs.files.filter fun f => isBackupName f.name)) maxN)))
      (fs.files.filter fun f => isBackupName f.name) with ⟨b2, cur2⟩
  have hcur2 : cur2 = fs.files.filter fun c =>
      !(decide (c ∈ countMarked
        (groupByPage (fs.files.filter fun f => isBackupName f.name)) maxN)) := by
    have hst := agePass_stays_when_young nowMs (maxAge * 24 * 60 * 60 * 1000)
      (fs.files.filter fun f => isBackupName f.name)
      (fs.files.filter fun c =>
        !(decide (c ∈ countMarked
          (groupByPage (fs.files.filter fun f => isBackupName f.name)) maxN)))
      (fun f hf => hyoung f (List.mem_filter.mp hf).1)
    rw [hap] at hst
    exact hst
  cases b2 <;> simp [hap, hcur2]

/-- C6, amended: retention deletion is NOT best-effort per artifact — the
first failing unlink throws into the outer catch, aborting every remaining
eviction. The artifacts marked before the failing one are gone, the
failing one and everything marked after it remain, and the only
observable outcome is the bare failure flag (`false`), with no per-file
failure aggregation. -/
theorem eviction_failure_aborts_batch (fs : CleanupFS) (nowMs : Int) (maxN : Nat)
    (maxAge : Int) (pre post : List FileEntry) (x : FileEntry)
    (hdir : fs.dirExists = true)
    (hnodup : (fs.files.map FileEntry.name).Nodup)
    (hmark : countMarked
      (groupByPage (fs.files.filter fun f => isBackupName f.name)) maxN =
        pre ++ x :: post)
    (hpre : ∀ f ∈ pre, f.unlinkFails = false)
    (hx : x.unlinkFails = true) :
    cleanupOldBackups fs nowMs maxN maxAge =
      (.failed, fs.files.filter fun c => !(decide (c ∈ pre))) ∧
    ∀ f ∈ post, f ∈ (cleanupOldBackups fs nowMs maxN maxAge).2 := by
  have hmsub : ∀ f ∈ pre ++ x :: post, f ∈ fs.files := by
    intro f hf
    rw [← hmark] at hf
    exact (List.mem_filter.mp (countMarked_subset hf)).1
  have hmnodup : ((pre ++ x :: post).map FileEntry.name).Nodup := by
    rw [← hmark]
    exact countMarked_names_nodup _ maxN
      (((List.filter_sublist fs.files).map FileEntry.name).nodup hnodup)
  rw [List.map_append, List.nodup_append] at hmnodup
  obtain ⟨hprenodup, hxpostnodup, hdisj⟩ := hmnodup
  have hxpre : x ∉ pre := by
    intro hmem
    refine hdisj (List.mem_map_of_mem FileEntry.name hmem) ?_
    rw [List.map_cons]
    exact List.mem_cons_self _ _
  have hrdpre := runDeletes_clean pre fs.files
    (fun f hf => hmsub f (List.mem_append_left _ hf)) hnodup hprenodup hpre
  have happend := runDeletes_append pre (x :: post) fs.files
    (fs.files.filter fun c => !(decide (c ∈ pre))) hrdpre
  have hxcur : x ∈ fs.files.filter fun c => !(decide (c ∈ pre)) :=
    List.mem_filter.mpr
      ⟨hmsub x (List.mem_append_right _ (List.mem_cons_self _ _)), by simp [hxpre]⟩
  have hstep : runDeletes (fs.files.filter fun c => !(decide (c ∈ pre)))
      (x :: post) = (false, fs.files.filter fun c => !(decide (c ∈ pre))) := by
    simp only [runDeletes]
    rw [if_pos (List.any_eq_true.mpr ⟨x, hxcur, by simp⟩), hx]
    rw [if_pos rfl]
  have hmain : cleanupOldBackups fs nowMs maxN maxAge =
      (.failed, fs.files.filter fun c => !(decide (c ∈ pre))) := by
    rw [cleanup_eq_of_dirExists fs nowMs maxN maxAge hdir, hmark, happend, hstep]
  refine ⟨hmain, ?_⟩
  intro f hf
  rw [hmain]
  refine List.mem_filter.mpr
    ⟨hmsub f (List.mem_append_right _ (List.mem_cons_of_mem x hf)), ?_⟩
  simp only [Bool.not_eq_true', decide_eq_false_iff_not]
  intro hmem
  refine hdisj (List.mem_map_of_mem FileEntry.name hmem) ?_
  rw [List.map_cons]
  exact List.mem_cons_of_mem _ (List.mem_map_of_mem FileEntry.name hf)

/-- Witness for the amended C6 theorem at the concrete three-file store:
`fileA` (failing) is the first marked file, `fileB` is marked after it and
survives. -/
theorem eviction_failure_aborts_batch_witness :
    cleanupOldBackups ⟨true, [fileA, fileB, fileC]⟩ 0 1 30 =
      (.failed, (⟨true, [fileA, fileB, fileC]⟩ : CleanupFS).files.filter fun c =>
        !(decide (c ∈ ([] : List FileEntry)))) :=
  (eviction_failure_aborts_batch ⟨true, [fileA, fileB, fileC]⟩ 0 1 30 [] [fileB]
    fileA (by decide) (by decide) (by decide) (by decide) (by decide)).1

/-- A file with a parsed page id is a backup file. -/
theorem isBackupName_of_pageOf {f : FileEntry} {p : String}
    (h : pageOf f = some p) : isBackupName f.name = true := by
  unfold pageOf at h
  unfold isBackupName
  cases hm : matchBackupName f.name
  · rw [hm] at h
    cases h
  · rfl

/-- Filtering on a page id already selects backup files only. -/
theorem filter_page_absorb (l : List FileEntry) (p : String) :
    ((l.filter fun f => isBackupName f.name).filter fun f =>
        decide (pageOf f = some p)) =
      l.filter fun f => decide (pageOf f = some p) := by
  rw [List.filter_filter]
  apply List.filter_congr
  intro f _
  by_cases h : pageOf f = some p
  · simp [h, isBackupName_of_pageOf h]
  · simp [h]

/-- Two distinct strings have distinct character data. -/
theorem string_eq_of_data_eq {s t : String} (h : s.data = t.data) : s = t := by
  cases s
  cases t
  exact congrArg String.mk (by simpa using h)

/-- C4: count-based retention keeps the newest. With every deletion
succeeding and no file past the age limit, after
`cleanupOldBackups(maxN, maxAge)` every page has `min (group size) maxN`
artifacts left — in particular at most `maxN` — and every evicted artifact
of a page has a strictly smaller `capturedAt` than every retained one.
The order hypothesis `hord` states that, within one page, filename order
agrees with capture-timestamp order — true of the fixed-width ISO encoding
the system writes. -/
theorem count_retention_keeps_newest (fs : CleanupFS) (nowMs : Int) (maxN : Nat)
    (maxAge : Int) (p : String)
    (hdir : fs.dirExists = true)
    (hok : ∀ f ∈ fs.files, f.unlinkFails = false)
    (hnodup : (fs.files.map FileEntry.name).Nodup)
    (hyoung : ∀ f ∈ fs.files, nowMs - f.mtime ≤ maxAge * 24 * 60 * 60 * 1000)
    (hord : ∀ f ∈ fs.files, ∀ g ∈ fs.files,
      pageOf f = some p → pageOf g = some p →
      (lexLt f.name.data g.name.data = true ↔
        lexLt (capturedAtD f).data (capturedAtD g).data = true)) :
    ((cleanupOldBackups fs nowMs maxN maxAge).2.filter fun f =>
        decide (pageOf f = some p)).length =
      min (fs.files.filter fun f => decide (pageOf f = some p)).length maxN ∧
    ∀ f ∈ fs.files.filter fun f => decide (pageOf f = some p),
      f ∉ ((cleanupOldBackups fs nowMs maxN maxAge).2.filter fun f =>
        decide (pageOf f = some p)) →
      ∀ g ∈ ((cleanupOldBackups fs nowMs maxN maxAge).2.filter fun f =>
        decide (pageOf f = some p)),
        lexLt (capturedAtD f).data (capturedAtD g).data = true := by
  have hrem := cleanup_remaining_of_clean fs nowMs maxN maxAge hdir hok hnodup hyoung
  have hbfnodup : ((fs.files.filter fun f => isBackupName f.name).map
      FileEntry.name).Nodup :=
    ((List.filter_sublist fs.files).map FileEntry.name).nodup hnodup
  have hkey : ((cleanupOldBackups fs nowMs maxN maxAge).2.filter fun f =>
      decide (pageOf f = some p)) =
      (((fs.files.filter fun f => isBackupName f.name).filter fun f =>
          decide (pageOf f = some p)).filter fun c =>
        !(decide (c ∈ pageMarked (fs.files.filter fun f => isBackupName f.name)
          p maxN))) := by
    rw [hrem, filter_page_absorb, List.filter_filter, List.filter_filter]
    apply List.filter_congr
    intro c hc
    by_cases hcp : pageOf c = some p
    · have hiff := mem_countMarked_iff
        (fs.files.filter fun f => isBackupName f.name) maxN c p hcp
      by_cases hcm : c ∈ pageMarked (fs.files.filter fun f => isBackupName f.name)
          p maxN
      · simp [hcp, hcm, hiff.mpr hcm]
      · have hnm : c ∉ countMarked
            (groupByPage (fs.files.filter fun f => isBackupName f.name)) maxN :=
          fun hmem => hcm (hiff.mp hmem)
        simp [hcp, hcm, hnm]
    · simp [hcp]
  obtain ⟨hlen, hmarkmem, hordered⟩ :=
    pageMarked_analysis (fs.files.filter fun f => isBackupName f.name) p maxN
      hbfnodup
  constructor
  · rw [hkey, hlen, filter_page_absorb]
  · intro f hf hnk g hg
    have hf2 : f ∈ (fs.files.filter fun f => isBackupName f.name).filter fun f =>
        decide (pageOf f = some p) := by
      rw [filter_page_absorb]
      exact hf
    rw [hkey] at hnk hg
    have hfm : f ∈ pageMarked (fs.files.filter fun f => isBackupName f.name)
        p maxN := hmarkmem f hf2 hnk
    have hres := hordered f hfm g hg
    have hfmem : f ∈ fs.files := (List.mem_filter.mp hf).1
    have hgmem : g ∈ fs.files := by
      have := (List.mem_filter.mp hg).1
      have := (List.mem_filter.mp this).1
      exact (List.mem_filter.mp this).1
    have hfp : pageOf f = some p := of_decide_eq_true (List.mem_filter.mp hf).2
    have hgp : pageOf g = some p := by
      have := (List.mem_filter.mp hg).1
      exact of_decide_eq_true (List.mem_filter.mp this).2
    have hname : f.name ≠ g.name := by
      intro hn
      exact hres.2 (eq_of_name_eq hnodup hfmem hgmem hn)
    have hlt : lexLt f.name.data g.name.data = true :=
      lexLt_of_lexLe_of_ne f.name.data g.name.data hres.1
        fun hd => hname (string_eq_of_data_eq hd)
    exact (hord f hfmem g hgmem hfp hgp).mp hlt

/-- Witness for C4 at a concrete store: two backups of one page, limit 1 —
exactly one artifact is retained. -/
theorem count_retention_keeps_newest_witness :
    ((cleanupOldBackups ⟨true, [keepOld, keepNew]⟩ 0 1 30).2.filter fun f =>
        decide (pageOf f = some "p1")).length =
      min ((⟨true, [keepOld, keepNew]⟩ : CleanupFS).files.filter fun f =>
        decide (pageOf f = some "p1")).length 1 :=
  (count_retention_keeps_newest ⟨true, [keepOld, keepNew]⟩ 0 1 30 "p1"
    (by decide) (by decide) (by decide) (by decide) (by decide)).1

/-- When no page exceeds the limit, the count pass marks nothing. -/
theorem countMarked_eq_nil {gs : List (String × List FileEntry)} {maxN : Nat}
    (h : ∀ pg ∈ gs, ¬(pg.2.length > maxN)) : countMarked gs maxN = [] := by
  induction gs with
  | nil => rfl
  | cons pg rest ih =>
    show (if pg.2.length > maxN then _ else []) ++ countMarked rest maxN = []
    rw [if_neg (h pg (List.mem_cons_self pg rest)), List.nil_append]
    exact ih fun qg hq => h qg (List.mem_cons_of_mem pg hq)

/-- C5, amended: the age pass marks an artifact for deletion exactly when
`now` minus the file's MODIFICATION TIME (`stats.mtime`, not the
`capturedAt` encoded in the name) exceeds `maxBackupAge` days, across all
artifacts regardless of grouping; afterwards no remaining artifact has an
mtime-age over the limit. (Stated for runs where the count pass has
nothing to do and deletions succeed, so the age pass is not aborted by a
thrown stat.) -/
theorem age_eviction_uses_mtime (fs : CleanupFS) (nowMs : Int) (maxN : Nat)
    (maxAge : Int)
    (hdir : fs.dirExists = true)
    (hok : ∀ f ∈ fs.files, f.unlinkFails = false)
    (hnodup : (fs.files.map FileEntry.name).Nodup)
    (hsmall : (fs.files.filter fun f => isBackupName f.name).length ≤ maxN) :
    cleanupOldBackups fs nowMs maxN maxAge =
      (.ok, fs.files.filter fun c =>
        !(isBackupName c.name &&
          decide (nowMs - c.mtime > maxAge * 24 * 60 * 60 * 1000))) ∧
    ∀ f ∈ (cleanupOldBackups fs nowMs maxN maxAge).2,
      isBackupName f.name = true →
        nowMs - f.mtime ≤ maxAge * 24 * 60 * 60 * 1000 := by
  have hnil : countMarked
      (groupByPage (fs.files.filter fun f => isBackupName f.name)) maxN = [] := by
    apply countMarked_eq_nil
    intro pg hpg
    rw [mem_groupByPage_eq_filter _ pg hpg]
    have h1 := List.length_filter_le
      (fun f => decide (pageOf f = some pg.1))
      (fs.files.filter fun f => isBackupName f.name)
    omega
  have hcomplete := agePass_complete nowMs (maxAge * 24 * 60 * 60 * 1000)
    (fs.files.filter fun f => isBackupName f.name) fs.files
    (fun f hf => (List.mem_filter.mp hf).1) hnodup
    (((List.filter_sublist fs.files).map FileEntry.name).nodup hnodup)
    (fun f hf => hok f (List.mem_filter.mp hf).1)
  have hmain : cleanupOldBackups fs nowMs maxN maxAge =
      (.ok, fs.files.filter fun c =>
        !(isBackupName c.name &&
          decide (nowMs - c.mtime > maxAge * 24 * 60 * 60 * 1000))) := by
    rw [cleanup_eq_of_dirExists fs nowMs maxN maxAge hdir, hnil]
    show (match agePass nowMs (maxAge * 24 * 60 * 60 * 1000) fs.files
        (fs.files.filter fun f => isBackupName f.name) with
      | (false, cur2) => (CleanupResult.failed, cur2)
      | (true, cur2) => (CleanupResult.ok, cur2)) = _
    rw [hcomplete]
    refine congrArg (Prod.mk CleanupResult.ok) (List.filter_congr ?_)
    intro c hc
    by_cases hb : isBackupName c.name = true
    · have : c ∈ fs.files.filter fun f => isBackupName f.name :=
        List.mem_filter.mpr ⟨hc, hb⟩
      simp [hb, this]
    · have hbx : isBackupName c.name = false := by
        cases hv : isBackupName c.name
        · rfl
        · exact absurd hv hb
      have : c ∉ fs.files.filter fun f => isBackupName f.name := by
        intro hmem
        exact hb (List.mem_filter.mp hmem).2
      simp [hbx, this]
  refine ⟨hmain, ?_⟩
  intro f hf hbn
  rw [hmain] at hf
  have hp := (List.mem_filter.mp hf).2
  rw [hbn] at hp
  simp only [Bool.true_and, Bool.not_eq_true', decide_eq_false_iff_not] at hp
  exact not_lt.mp hp

/-- Witness for the amended C5 theorem at a concrete store. -/
theorem age_eviction_uses_mtime_witness :
    cleanupOldBackups ⟨true, [agedTwinOld, agedTwinNew]⟩ 2592000001 5 30 =
      (.ok, (⟨true, [agedTwinOld, agedTwinNew]⟩ : CleanupFS).files.filter fun c =>
        !(isBackupName c.name &&
          decide ((2592000001 : Int) - c.mtime > 30 * 24 * 60 * 60 * 1000))) :=
  (age_eviction_uses_mtime ⟨true, [agedTwinOld, agedTwinNew]⟩ 2592000001 5 30
    (by decide) (by decide) (by decide) (by decide)).1

/-- Witness for the amended C8 theorem at concrete arguments. -/
theorem backup_failure_aborts_delete_only_witness :
    deletePageTool "pg" false (.failure "boom") =
      (⟨true,
        "Safety procedure failed: Could not create backup before deletion. Operation aborted. Error: "
          ++ "boom"⟩,
       false) ∧
    (updatePageTool "pg" false (.failure "boom")).2 = true :=
  ⟨(backup_failure_aborts_delete_only "pg" "boom").1,
   (backup_failure_aborts_delete_only "pg" "boom").2.2⟩

theorem validateBlock_eq (b : JsVal) :
    validateBlock b = if wellFormedBlock b = true then b else defaultParagraphBlock := by
  unfold validateBlock wellFormedBlock
  cases ht : getField b "type" with
  | none => simp
  | some tv =>
    by_cases htr : jsTruthy tv = true
    · by_cases hp : (getField b (jsPropKey tv)).isNone
      · have : (getField b (jsPropKey tv)).isSome = false := by
          cases hv : getField b (jsPropKey tv)
          · rfl
          · rw [hv] at hp
            cases hp
        simp [htr, hp, this]
      · have : (getField b (jsPropKey tv)).isSome = true := by
          cases hv : getField b (jsPropKey tv)
          · rw [hv] at hp
            exact absurd rfl hp
          · rfl
        simp [htr, hp, this]
    · have htr' : jsTruthy tv = false := by
        cases hv : jsTruthy tv
        · rfl
        · exact absurd hv htr
      simp [htr']

theorem wellFormed_defaultParagraphBlock :
    wellFormedBlock defaultParagraphBlock = true := by
  rfl

theorem validateBlock_idem (b : JsVal) :
    validateBlock (validateBlock b) = validateBlock b := by
  by_cases h : wellFormedBlock b = true
  · rw [validateBlock_eq b, if_pos h, validateBlock_eq b, if_pos h]
  · rw [validateBlock_eq b, if_neg h, validateBlock_eq defaultParagraphBlock,
      if_pos wellFormed_defaultParagraphBlock]

/-- C10: block validation on create and update substitutes instead of
rejecting. For every content list, the blocks `createPage` and
`updatePage` send to the Gateway are the input blocks with every
malformed one (no truthy `type` discriminator, or no payload under the
key named by it) replaced by the default paragraph block whose text is
"Invalid block removed.", and every well-formed block passed through
unchanged. -/
theorem validation_substitutes_default (content : List JsVal) :
    createPageSentBlocks content =
      content.map (fun b =>
        if wellFormedBlock b = true then b else defaultParagraphBlock) ∧
    updatePageSentBlocks content =
      content.map (fun b =>
        if wellFormedBlock b = true then b else defaultParagraphBlock) ∧
    (∀ b, wellFormedBlock b = false → validateBlock b = defaultParagraphBlock) ∧
    (∀ b, wellFormedBlock b = true → validateBlock b = b) := by
  have hdouble : validateBlocks (validateBlocks content) =
      content.map (fun b =>
        if wellFormedBlock b = true then b else defaultParagraphBlock) := by
    unfold validateBlocks
    rw [List.map_map]
    apply List.map_congr_left
    intro b _
    show validateBlock (validateBlock b) = _
    rw [validateBlock_idem, validateBlock_eq]
  have hsent : ∀ l : List JsVal,
      (if l.length > 0 then validateBlocks (validateBlocks l) else []) =
        (if l.length > 0 then validateBlocks (validateBlocks l) else []) := fun _ => rfl
  refine ⟨?_, ?_, ?_, ?_⟩
  · unfold createPageSentBlocks
    cases content with
    | nil => rfl
    | cons b bs =>
      rw [if_pos (by simp)]
      exact hdouble
  · unfold updatePageSentBlocks
    cases content with
    | nil => rfl
    | cons b bs =>
      rw [if_pos (by simp)]
      exact hdouble
  · intro b hb
    rw [validateBlock_eq, if_neg (by rw [hb]; exact Bool.false_ne_true)]
  · intro b hb
    rw [validateBlock_eq, if_pos hb]

end NotionMCP
